import Mathlib

/-!
Verification development for the tsinfer Python algorithm module
(`tsinfer/algorithm.py`).  The Python classes `AncestorBuilder`,
`TreeSequenceBuilder` and `AncestorMatcher` are shallowly embedded as
executable Lean functions over lists; machine floats become exact
rationals, numpy arrays become lists, Python dicts become
insertion-ordered association lists, and code paths that raise
(`assert` failures, `IndexError`) return `none`.
-/

namespace Tsinfer

/-- Sentinel allele value, `UNKNOWN_ALLELE = 255` in the source. -/
def UNKNOWN_ALLELE : ℕ := 255

/-- Mirrors class `Site` of the source: a site id, its derived-allele
frequency, and the optionally retained genotype vector. -/
structure Site where
  id : ℕ
  frequency : ℕ
  genotypes : Option (List ℕ)
deriving DecidableEq

/-- Mirrors the state of class `AncestorBuilder`.  `frequency_map` holds, for
each frequency `f < num_samples`, an insertion-ordered association list from
genotype-pattern key (the genotype vector itself stands for the `tobytes()`
byte string, an injective encoding) to the list of site ids sharing that
pattern. -/
structure AncestorBuilder where
  num_samples : ℕ
  num_sites : ℕ
  sites : List (Option Site)
  frequency_map : List (List (List ℕ × List ℕ))
deriving DecidableEq

/-- Mirrors `AncestorBuilder.__init__`. -/
def AncestorBuilder.init (num_samples num_sites : ℕ) : AncestorBuilder :=
  ⟨num_samples, num_sites, List.replicate num_sites none, List.replicate num_samples []⟩

/-- Behaviour of `pattern_map[key].append(site_id)` on an insertion-ordered
dict: append to the existing bucket, or create a new bucket at the end. -/
def patternAppend : List (List ℕ × List ℕ) → List ℕ → ℕ → List (List ℕ × List ℕ)
  | [], key, site_id => [(key, [site_id])]
  | (k, v) :: rest, key, site_id =>
    if k = key then (k, v ++ [site_id]) :: rest
    else (k, v) :: patternAppend rest key site_id

/-- Mirrors `AncestorBuilder.add_site`.  Returns `none` where Python raises
`IndexError`: `site_id` out of range, or `frequency ≥ len(frequency_map)`
when `frequency > 1`. -/
def AncestorBuilder.add_site (b : AncestorBuilder) (site_id frequency : ℕ)
    (genotypes : List ℕ) : Option AncestorBuilder :=
  if site_id < b.num_sites then
    if 1 < frequency then
      if frequency < b.frequency_map.length then
        some { b with
          sites := b.sites.set site_id (some ⟨site_id, frequency, some genotypes⟩),
          frequency_map := b.frequency_map.set frequency
            (patternAppend (b.frequency_map.getD frequency []) genotypes site_id) }
      else none
    else
      some { b with sites := b.sites.set site_id (some ⟨site_id, frequency, none⟩) }
  else none

/-- Mirrors `AncestorBuilder.ancestor_descriptors`: enumerate the pattern
buckets in decreasing frequency order, in bucket insertion order within one
frequency. -/
def AncestorBuilder.ancestor_descriptors (b : AncestorBuilder) : List (ℕ × List ℕ) :=
  ((List.range b.num_samples).reverse).flatMap
    (fun f => (b.frequency_map.getD f []).map (fun kv => (f, kv.2)))

/-- Frequency recorded for site `l` (`self.sites[l].frequency`); 0 for an
absent site. -/
def siteFreq (b : AncestorBuilder) (l : ℕ) : ℕ :=
  ((b.sites.getD l none).map Site.frequency).getD 0

/-- Genotype of sample `j` at site `l` (`self.sites[l].genotypes[j]`); 0 when
absent. -/
def siteGen (b : AncestorBuilder) (l : ℕ) (j : ℕ) : ℕ :=
  (((b.sites.getD l none).bind Site.genotypes).getD []).getD j 0

/-- Initial working sample set of `AncestorBuilder.__build_ancestor_sites`:
the samples carrying allele 1 at the focal site. -/
def focalSamples (b : AncestorBuilder) (focal_site : ℕ) : Finset ℕ :=
  (Finset.range b.num_samples).filter (fun j => siteGen b focal_site j = 1)

/-- The site-by-site sweep loop of `AncestorBuilder.__build_ancestor_sites`.
For each site `l` in sweep order: set `a[l] = 0`; when `l`'s frequency
exceeds the anchor's, count alleles inside the working set, set `a[l] = 1`
when ones ≥ zeros and restrict the working set to the samples agreeing with
the chosen allele; stop when the working set has exactly one element. -/
def buildAncestorSitesGo (b : AncestorBuilder) (focal_site : ℕ) :
    Finset ℕ → List ℕ → List ℕ → List ℕ
  | _, [], a => a
  | samples, l :: rest, a =>
    let a1 := a.set l 0
    let res :=
      if siteFreq b focal_site < siteFreq b l then
        let num_ones := (samples.filter (fun j => siteGen b l j = 1)).card
        let num_zeros := (samples.filter (fun j => ¬ siteGen b l j = 1)).card
        if num_zeros ≤ num_ones then
          (a1.set l 1, samples.filter (fun j => siteGen b l j = 1))
        else
          (a1, samples.filter (fun j => siteGen b l j = 0))
      else (a1, samples)
    if res.2.card = 1 then res.1
    else buildAncestorSitesGo b focal_site res.2 rest res.1

/-- Mirrors `AncestorBuilder.__build_ancestor_sites`. -/
def AncestorBuilder.build_ancestor_sites (b : AncestorBuilder) (focal_site : ℕ)
    (sites : List ℕ) (a : List ℕ) : List ℕ :=
  buildAncestorSitesGo b focal_site (focalSamples b focal_site) sites a

/-- Mirrors `AncestorBuilder.make_ancestor`.  The caller's buffer `a` only
contributes its length (the code starts with `a[:] = UNKNOWN_ALLELE`).
Returns `(start, end, a)`; `none` where Python raises (empty `focal_sites`,
or no site left known). -/
def AncestorBuilder.make_ancestor (b : AncestorBuilder) (focal_sites : List ℕ)
    (a : List ℕ) : Option (ℕ × ℕ × List ℕ) :=
  let a0 := List.replicate a.length UNKNOWN_ALLELE
  match focal_sites with
  | [] => none
  | f0 :: rest =>
    let fl := (f0 :: rest).getLast (by simp)
    let a1 := b.build_ancestor_sites f0 (List.range' (fl + 1) (b.num_sites - (fl + 1))) a0
    let a2 := b.build_ancestor_sites fl ((List.range f0).reverse) a1
    let a3 := (List.range' f0 (fl + 1 - f0)).foldl
      (fun acc j => if j ∈ focal_sites then acc.set j 1
                    else b.build_ancestor_sites fl [j] acc) a2
    let known := (List.range a3.length).filter (fun j => a3.getD j UNKNOWN_ALLELE ≠ UNKNOWN_ALLELE)
    match known.head?, known.getLast? with
    | some s, some e => some (s, e + 1, a3)
    | _, _ => none

/-! Spec-side sweep rule, written from the specification's words for the
refinement claim about `__build_ancestor_sites`. -/

/-- Allele chosen by the sweep consensus rule at an informative site: 1 when
the working samples carrying allele 1 are at least as many as those carrying
another allele (ties pick 1), else 0. -/
def sweepChoice (b : AncestorBuilder) (l : ℕ) (samples : Finset ℕ) : ℕ :=
  if (samples.filter (fun j => ¬ siteGen b l j = 1)).card ≤
      (samples.filter (fun j => siteGen b l j = 1)).card then 1 else 0

/-- One sweep step as the specification states it: an uninformative site
(frequency at most the anchor's) gets `a[l] = 0` and leaves the working set
alone; an informative site gets the consensus allele and restricts the
working set to the samples agreeing with it. -/
def sweepSpecStep (b : AncestorBuilder) (anchor l : ℕ) (samples : Finset ℕ)
    (a : List ℕ) : Finset ℕ × List ℕ :=
  if siteFreq b l ≤ siteFreq b anchor then (samples, a.set l 0)
  else
    let c := sweepChoice b l samples
    (samples.filter (fun j => siteGen b l j = c), a.set l c)

/-- The sweep as the specification states it: apply `sweepSpecStep` to each
candidate site in sweep order, terminating as soon as the working set has
exactly one element. -/
def sweepSpec (b : AncestorBuilder) (anchor : ℕ) :
    Finset ℕ → List ℕ → List ℕ → List ℕ
  | _, [], a => a
  | samples, l :: rest, a =>
    let step := sweepSpecStep b anchor l samples a
    if step.1.card = 1 then step.2 else sweepSpec b anchor step.1 rest step.2

/-- Claim C4: in every sweep of `make_ancestor`, each candidate site visited
in sweep order follows the specification's consensus rule: an uninformative
site (frequency ≤ the anchor's) gets `a[l] = 0` with the working set left
alone; an informative site gets allele 1 exactly when the working samples
carrying 1 are at least as many as those carrying 0 (ties pick 1), the
working set is restricted to the samples agreeing with the chosen allele,
and the sweep terminates as soon as the working set has exactly one
element.  Stated as refinement: the source loop `__build_ancestor_sites`
(`buildAncestorSitesGo`) equals the sweep written from the spec's words
(`sweepSpec`). -/
theorem C4_build_ancestor_sites_follows_sweep_rule (b : AncestorBuilder) (anchor : ℕ)
    (samples : Finset ℕ) (sites : List ℕ) (a : List ℕ) :
    buildAncestorSitesGo b anchor samples sites a = sweepSpec b anchor samples sites a := by
  induction sites generalizing samples a with
  | nil => rfl
  | cons l rest ih =>
    simp only [buildAncestorSitesGo, sweepSpec, sweepSpecStep, sweepChoice]
    rcases le_or_lt (siteFreq b l) (siteFreq b anchor) with hle | hlt
    · simp [hle, not_lt.mpr hle, ih]
    · simp only [hlt, not_le.mpr hlt, if_true, if_false]
      by_cases hc :
          (samples.filter (fun j => ¬ siteGen b l j = 1)).card ≤
            (samples.filter (fun j => siteGen b l j = 1)).card
      · simp [hc, List.set_set, ih]
      · simp [hc, ih]

/-! Invariants of `add_site` / `ancestor_descriptors` (claim C7). -/

/-- All site ids stored anywhere in the frequency map. -/
def mapSites (b : AncestorBuilder) : List ℕ :=
  b.frequency_map.flatMap (fun pm => pm.flatMap (fun kv => kv.2))

/-- Every pattern bucket is non-empty and strictly ascending. -/
def BucketsOK (b : AncestorBuilder) : Prop :=
  ∀ pm ∈ b.frequency_map, ∀ kv ∈ pm, kv.2 ≠ [] ∧ kv.2.Pairwise (· < ·)

/-- Folds a list of `add_site` calls `(site_id, frequency, genotypes)` over a
builder, failing as soon as one call fails. -/
def buildFrom (b : AncestorBuilder) : List (ℕ × ℕ × List ℕ) → Option AncestorBuilder
  | [] => some b
  | c :: rest => (b.add_site c.1 c.2.1 c.2.2).bind (fun b2 => buildFrom b2 rest)

theorem mem_patternAppend_flat (pm : List (List ℕ × List ℕ)) (key : List ℕ) (sid x : ℕ) :
    x ∈ (patternAppend pm key sid).flatMap (fun kv => kv.2) ↔
      x ∈ pm.flatMap (fun kv => kv.2) ∨ x = sid := by
  induction pm with
  | nil => simp [patternAppend]
  | cons hd tl ih =>
    obtain ⟨k, v⟩ := hd
    by_cases hk : k = key
    · simp only [patternAppend, hk, if_true, eq_self_iff_true, List.flatMap_cons,
        List.mem_append, List.mem_singleton]
      tauto
    · simp only [patternAppend, hk, if_false, List.flatMap_cons, List.mem_append, ih]
      tauto

theorem patternAppend_ok (pm : List (List ℕ × List ℕ)) (key : List ℕ) (sid : ℕ)
    (hok : ∀ kv ∈ pm, kv.2 ≠ [] ∧ kv.2.Pairwise (· < ·))
    (hbound : ∀ kv ∈ pm, ∀ x ∈ kv.2, x < sid) :
    ∀ kv ∈ patternAppend pm key sid, kv.2 ≠ [] ∧ kv.2.Pairwise (· < ·) := by
  induction pm with
  | nil =>
    intro kv hkv
    simp only [patternAppend, List.mem_singleton] at hkv
    subst hkv
    simp
  | cons hd tl ih =>
    obtain ⟨k, v⟩ := hd
    by_cases hk : k = key
    · intro kv hkv
      simp only [patternAppend, hk, if_true, eq_self_iff_true, List.mem_cons] at hkv
      rcases hkv with rfl | hkv
      · refine ⟨by simp, ?_⟩
        rw [List.pairwise_append]
        refine ⟨(hok (k, v) (List.mem_cons_self _ _)).2, List.pairwise_singleton _ _, ?_⟩
        intro a ha b hb
        rw [List.mem_singleton] at hb
        subst hb
        exact hbound (k, v) (List.mem_cons_self _ _) a ha
      · exact hok kv (List.mem_cons_of_mem _ hkv)
    · intro kv hkv
      simp only [patternAppend, hk, if_false, List.mem_cons] at hkv
      rcases hkv with rfl | hkv
      · exact hok (k, v) (List.mem_cons_self _ _)
      · exact ih (fun kv h => hok kv (List.mem_cons_of_mem _ h))
          (fun kv h => hbound kv (List.mem_cons_of_mem _ h)) kv hkv

theorem mem_flatMap_set_imp {α β : Type*} (F : α → List β) (l : List α) (i : ℕ) (y : α)
    (x : β) (h : x ∈ (l.set i y).flatMap F) : x ∈ l.flatMap F ∨ x ∈ F y := by
  rw [List.mem_flatMap] at h
  obtain ⟨a, ha, hx⟩ := h
  rcases List.mem_or_eq_of_mem_set ha with h1 | h1
  · exact Or.inl (List.mem_flatMap.mpr ⟨a, h1, hx⟩)
  · subst h1
    exact Or.inr hx

theorem mem_flatMap_set_self {α β : Type*} (F : α → List β) (l : List α) (i : ℕ) (y : α)
    (hi : i < l.length) (x : β) (hx : x ∈ F y) : x ∈ (l.set i y).flatMap F := by
  refine List.mem_flatMap.mpr ⟨y, ?_, hx⟩
  rw [List.mem_iff_getElem]
  refine ⟨i, by simpa using hi, ?_⟩
  rw [List.getElem_set]
  simp

theorem mem_flatMap_set_of_mem {α β : Type*} [Inhabited α] (F : α → List β) (l : List α)
    (i : ℕ) (y : α) (x : β) (h : x ∈ l.flatMap F) :
    x ∈ (l.set i y).flatMap F ∨ x ∈ F (l.getD i default) := by
  rw [List.mem_flatMap] at h
  obtain ⟨a, ha, hx⟩ := h
  rw [List.mem_iff_getElem] at ha
  obtain ⟨j, hj, rfl⟩ := ha
  by_cases hij : i = j
  · subst hij
    rw [List.getD_eq_getElem l default hj]
    exact Or.inr hx
  · left
    refine List.mem_flatMap.mpr ⟨l[j], ?_, hx⟩
    rw [List.mem_iff_getElem]
    refine ⟨j, by simpa using hj, ?_⟩
    rw [List.getElem_set, if_neg hij]

theorem add_site_mapSites {b b' : AncestorBuilder} {sid f : ℕ} {g : List ℕ}
    (h : b.add_site sid f g = some b') :
    (∀ x, x ∈ mapSites b' ↔ x ∈ mapSites b ∨ (1 < f ∧ x = sid)) ∧
    b'.frequency_map.length = b.frequency_map.length ∧
    b'.num_samples = b.num_samples := by
  unfold AncestorBuilder.add_site at h
  by_cases h1 : sid < b.num_sites
  · rw [if_pos h1] at h
    by_cases h2 : 1 < f
    · rw [if_pos h2] at h
      by_cases h3 : f < b.frequency_map.length
      · rw [if_pos h3] at h
        cases h
        refine ⟨?_, by simp [List.length_set], rfl⟩
        intro x
        simp only [mapSites]
        constructor
        · intro hx
          rcases mem_flatMap_set_imp _ _ _ _ _ hx with hx | hx
          · exact Or.inl hx
          · rw [mem_patternAppend_flat] at hx
            rcases hx with hx | rfl
            · refine Or.inl ?_
              refine List.mem_flatMap.mpr ⟨b.frequency_map.getD f [], ?_, hx⟩
              rw [List.getD_eq_getElem _ _ h3]
              exact List.getElem_mem _
            · exact Or.inr ⟨h2, rfl⟩
        · intro hx
          rcases hx with hx | ⟨_, rfl⟩
          · rcases mem_flatMap_set_of_mem (fun pm => pm.flatMap (fun kv => kv.2))
                b.frequency_map f (patternAppend (b.frequency_map.getD f []) g sid)
                x hx with hx' | hx'
            · exact hx'
            · refine mem_flatMap_set_self _ _ _ _ h3 _ ?_
              rw [mem_patternAppend_flat]
              exact Or.inl (by simpa using hx')
          · refine mem_flatMap_set_self _ _ _ _ h3 _ ?_
            rw [mem_patternAppend_flat]
            exact Or.inr rfl
      · rw [if_neg h3] at h
        cases h
    · rw [if_neg h2] at h
      cases h
      refine ⟨?_, rfl, rfl⟩
      intro x
      simp [mapSites, h2]
  · rw [if_neg h1] at h
    cases h

theorem add_site_bucketsOK {b b' : AncestorBuilder} {sid f : ℕ} {g : List ℕ}
    (hok : BucketsOK b) (hbound : ∀ x ∈ mapSites b, x < sid)
    (h : b.add_site sid f g = some b') : BucketsOK b' := by
  unfold AncestorBuilder.add_site at h
  by_cases h1 : sid < b.num_sites
  · rw [if_pos h1] at h
    by_cases h2 : 1 < f
    · rw [if_pos h2] at h
      by_cases h3 : f < b.frequency_map.length
      · rw [if_pos h3] at h
        cases h
        intro pm hpm
        rcases List.mem_or_eq_of_mem_set hpm with hpm | rfl
        · exact hok pm hpm
        · refine patternAppend_ok _ _ _ ?_ ?_
          · intro kv hkv
            refine hok _ ?_ kv hkv
            rw [List.getD_eq_getElem _ _ h3]
            exact List.getElem_mem _
          · intro kv hkv x hx
            refine hbound x ?_
            refine List.mem_flatMap.mpr ⟨b.frequency_map.getD f [], ?_, ?_⟩
            · rw [List.getD_eq_getElem _ _ h3]
              exact List.getElem_mem _
            · exact List.mem_flatMap.mpr ⟨kv, hkv, hx⟩
      · rw [if_neg h3] at h
        cases h
    · rw [if_neg h2] at h
      cases h
      exact hok
  · rw [if_neg h1] at h
    cases h

theorem buildFrom_inv (calls : List (ℕ × ℕ × List ℕ)) :
    ∀ b b', buildFrom b calls = some b' →
    (calls.map (fun c => c.1)).Pairwise (· < ·) →
    (∀ s ∈ mapSites b, ∀ c ∈ calls, s < c.1) →
    BucketsOK b →
    BucketsOK b' ∧
    (∀ s, s ∈ mapSites b' ↔ s ∈ mapSites b ∨ ∃ c ∈ calls, c.1 = s ∧ 1 < c.2.1) ∧
    b'.frequency_map.length = b.frequency_map.length ∧
    b'.num_samples = b.num_samples := by
  induction calls with
  | nil =>
    intro b b' h _ _ hok
    simp only [buildFrom] at h
    cases h
    exact ⟨hok, by simp, rfl, rfl⟩
  | cons c rest ih =>
    intro b b' h hasc hbound hok
    simp only [buildFrom] at h
    cases hmid : b.add_site c.1 c.2.1 c.2.2 with
    | none => rw [hmid] at h; cases h
    | some b2 =>
      rw [hmid, Option.some_bind] at h
      obtain ⟨hmem2, hlen2, hns2⟩ := add_site_mapSites hmid
      have hok2 : BucketsOK b2 :=
        add_site_bucketsOK hok (fun x hx => hbound x hx c (List.mem_cons_self _ _)) hmid
      have hasc' : (rest.map (fun c => c.1)).Pairwise (· < ·) :=
        (List.pairwise_cons.mp (by simpa using hasc)).2
      have hbound2 : ∀ s ∈ mapSites b2, ∀ c' ∈ rest, s < c'.1 := by
        intro s hs c' hc'
        rcases (hmem2 s).mp hs with h' | ⟨_, rfl⟩
        · exact hbound s h' c' (List.mem_cons_of_mem _ hc')
        · exact (List.pairwise_cons.mp (by simpa using hasc)).1 c'.1
            (List.mem_map.mpr ⟨c', hc', rfl⟩)
      obtain ⟨hok', hmem', hlen', hns'⟩ := ih b2 b' h hasc' hbound2 hok2
      refine ⟨hok', ?_, hlen'.trans hlen2, hns'.trans hns2⟩
      intro s
      rw [hmem' s, hmem2 s]
      simp only [List.mem_cons]
      constructor
      · rintro ((hs | ⟨hf, rfl⟩) | ⟨c', hc', rfl, hf⟩)
        · exact Or.inl hs
        · exact Or.inr ⟨c, Or.inl rfl, rfl, hf⟩
        · exact Or.inr ⟨c', Or.inr hc', rfl, hf⟩
      · rintro (hs | ⟨c', (rfl | hc'), rfl, hf⟩)
        · exact Or.inl (Or.inl hs)
        · exact Or.inl (Or.inr ⟨hf, rfl⟩)
        · exact Or.inr ⟨c', hc', rfl, hf⟩

theorem mapSites_init (ns m : ℕ) : mapSites (AncestorBuilder.init ns m) = [] := by
  simp only [mapSites, AncestorBuilder.init]
  induction ns with
  | zero => rfl
  | succ n ihn => rw [List.replicate_succ, List.flatMap_cons, ihn]; rfl

theorem bucketsOK_init (ns m : ℕ) : BucketsOK (AncestorBuilder.init ns m) := by
  intro pm hpm
  simp only [AncestorBuilder.init, List.mem_replicate] at hpm
  rw [hpm.2]
  intro kv hkv
  cases hkv

theorem mem_ancestor_descriptors (b : AncestorBuilder) (d : ℕ × List ℕ) :
    d ∈ b.ancestor_descriptors ↔
      ∃ f, f < b.num_samples ∧ ∃ kv ∈ b.frequency_map.getD f [], d = (f, kv.2) := by
  simp only [AncestorBuilder.ancestor_descriptors, List.mem_flatMap, List.mem_reverse,
    List.mem_range, List.mem_map]
  constructor
  · rintro ⟨f, hf, kv, hkv, rfl⟩
    exact ⟨f, hf, kv, hkv, rfl⟩
  · rintro ⟨f, hf, kv, hkv, rfl⟩
    exact ⟨f, hf, kv, hkv, rfl⟩

theorem pairwise_flatMap_of_const {R : ℕ → ℕ → Prop} (hrefl : ∀ a, R a a)
    (F : ℕ → List ℕ) (hF : ∀ a, ∀ x ∈ F a, x = a) :
    ∀ l : List ℕ, l.Pairwise R → (l.flatMap F).Pairwise R := by
  intro l
  induction l with
  | nil => intro _; simp
  | cons a tl ihl =>
    intro hl
    rw [List.flatMap_cons, List.pairwise_append]
    obtain ⟨ha, htl⟩ := List.pairwise_cons.mp hl
    refine ⟨?_, ihl htl, ?_⟩
    · refine List.pairwise_of_forall_mem_list ?_
      intro x hx y hy
      rw [hF a x hx, hF a y hy]
      exact hrefl a
    · intro x hx y hy
      rw [List.mem_flatMap] at hy
      obtain ⟨c, hc, hyc⟩ := hy
      rw [hF a x hx, hF c y hyc]
      exact ha c hc

theorem descriptors_freq_antitone (b : AncestorBuilder) :
    (b.ancestor_descriptors.map Prod.fst).Pairwise (· ≥ ·) := by
  unfold AncestorBuilder.ancestor_descriptors
  rw [List.map_flatMap]
  refine @pairwise_flatMap_of_const (fun x y => x ≥ y) (fun a => le_refl a) _ ?_ _ ?_
  · intro a x hx
    rw [List.map_map, List.mem_map] at hx
    obtain ⟨kv, _, rfl⟩ := hx
    rfl
  · rw [List.pairwise_reverse]
    exact (List.pairwise_lt_range b.num_samples).imp (fun h => le_of_lt h)

/-- Claim C7 counterexample: the claim as stated fails, because `add_site`
does not require ascending site ids.  Adding site 1 and then site 0 with the
same frequency-2 pattern yields the single descriptor `(2, [1, 0])`, whose
focal-site list is not strictly ascending. -/
theorem C7_counterexample :
    ((buildFrom (AncestorBuilder.init 3 2)
        [(1, 2, [1, 1, 0]), (0, 2, [1, 1, 0])]).map
        (fun b => b.ancestor_descriptors) = some [(2, [1, 0])]) ∧
    ¬ ([1, 0] : List ℕ).Pairwise (· < ·) := by
  constructor
  · decide
  · decide

/-- Claim C7 (amended: the `add_site` calls must carry strictly ascending
site ids, as the data collaborator provides them): after populating a fresh
builder, `ancestor_descriptors` yields frequencies in non-increasing order,
every focal-site list strictly ascending, the union of all focal-site lists
is exactly the set of site ids added with frequency greater than 1, and the
result is empty when every added site has frequency at most 1 (which is
forced when `num_samples = 1`, since `add_site` fails for any larger
frequency). -/
theorem C7_ancestor_descriptors_invariants (ns m : ℕ) (calls : List (ℕ × ℕ × List ℕ))
    (b : AncestorBuilder)
    (hasc : (calls.map (fun c => c.1)).Pairwise (· < ·))
    (hb : buildFrom (AncestorBuilder.init ns m) calls = some b) :
    (b.ancestor_descriptors.map Prod.fst).Pairwise (· ≥ ·) ∧
    (∀ d ∈ b.ancestor_descriptors, d.2.Pairwise (· < ·)) ∧
    (∀ s, (∃ d ∈ b.ancestor_descriptors, s ∈ d.2) ↔ ∃ c ∈ calls, c.1 = s ∧ 1 < c.2.1) ∧
    ((∀ c ∈ calls, c.2.1 ≤ 1) → b.ancestor_descriptors = []) := by
  obtain ⟨hok, hmem, hlen, hns⟩ :=
    buildFrom_inv calls _ b hb hasc
      (by rw [mapSites_init]; intro s hs; cases hs) (bucketsOK_init ns m)
  have hlen' : b.num_samples = b.frequency_map.length := by
    rw [hns, hlen]
    simp [AncestorBuilder.init]
  have hbucket_mem : ∀ f, f < b.num_samples → b.frequency_map.getD f [] ∈ b.frequency_map := by
    intro f hf
    rw [List.getD_eq_getElem _ _ (hlen' ▸ hf)]
    exact List.getElem_mem _
  have hsite_char : ∀ s, s ∈ mapSites b ↔ ∃ c ∈ calls, c.1 = s ∧ 1 < c.2.1 := by
    intro s
    rw [hmem s, mapSites_init]
    simp
  refine ⟨descriptors_freq_antitone b, ?_, ?_, ?_⟩
  · intro d hd
    rw [mem_ancestor_descriptors] at hd
    obtain ⟨f, hf, kv, hkv, rfl⟩ := hd
    exact (hok _ (hbucket_mem f hf) kv hkv).2
  · intro s
    constructor
    · rintro ⟨d, hd, hs⟩
      rw [mem_ancestor_descriptors] at hd
      obtain ⟨f, hf, kv, hkv, rfl⟩ := hd
      refine (hsite_char s).mp ?_
      exact List.mem_flatMap.mpr ⟨_, hbucket_mem f hf, List.mem_flatMap.mpr ⟨kv, hkv, hs⟩⟩
    · intro hc
      have hs := (hsite_char s).mpr hc
      rw [mapSites, List.mem_flatMap] at hs
      obtain ⟨pm, hpm, hs⟩ := hs
      rw [List.mem_flatMap] at hs
      obtain ⟨kv, hkv, hs⟩ := hs
      rw [List.mem_iff_getElem] at hpm
      obtain ⟨f, hf, rfl⟩ := hpm
      refine ⟨(f, kv.2), ?_, hs⟩
      rw [mem_ancestor_descriptors]
      exact ⟨f, hlen' ▸ hf, kv, by rwa [List.getD_eq_getElem _ _ hf], rfl⟩
  · intro hall
    rw [List.eq_nil_iff_forall_not_mem]
    intro d hd
    rw [mem_ancestor_descriptors] at hd
    obtain ⟨f, hf, kv, hkv, rfl⟩ := hd
    obtain ⟨s, hs⟩ := List.exists_mem_of_ne_nil _ (hok _ (hbucket_mem f hf) kv hkv).1
    have := (hsite_char s).mp
      (List.mem_flatMap.mpr ⟨_, hbucket_mem f hf, List.mem_flatMap.mpr ⟨kv, hkv, hs⟩⟩)
    obtain ⟨c, hc, _, hfreq⟩ := this
    exact absurd (hall c hc) (by omega)

/-- Witness for claim C7's amended theorem at a concrete ascending input. -/
theorem C7_ancestor_descriptors_invariants_witness :
    ∃ b, buildFrom (AncestorBuilder.init 3 2) [(0, 2, [1, 1, 0]), (1, 2, [1, 1, 0])] = some b ∧
      ((b.ancestor_descriptors.map Prod.fst).Pairwise (· ≥ ·) ∧
       (∀ d ∈ b.ancestor_descriptors, d.2.Pairwise (· < ·)) ∧
       (∀ s, (∃ d ∈ b.ancestor_descriptors, s ∈ d.2) ↔
          ∃ c ∈ [(0, 2, [1, 1, 0]), (1, 2, [1, 1, 0])], c.1 = s ∧ 1 < c.2.1) ∧
       ((∀ c ∈ [(0, 2, [1, 1, 0]), (1, 2, [1, 1, 0])], c.2.1 ≤ 1) →
          b.ancestor_descriptors = [])) := by
  cases hb : buildFrom (AncestorBuilder.init 3 2) [(0, 2, [1, 1, 0]), (1, 2, [1, 1, 0])] with
  | none => exact absurd hb (by decide)
  | some b =>
    exact ⟨b, rfl, C7_ancestor_descriptors_invariants 3 2 _ b (by decide) hb⟩

/-! Embedding of class `TreeSequenceBuilder`. -/

/-- Mirrors class `Edge` of the source.  In builder states all four fields
are set; the traceback's partially built output edges get their own type. -/
structure Edge where
  left : ℕ
  right : ℕ
  parent : ℕ
  child : ℕ
deriving DecidableEq, Inhabited

/-- Mirrors the state of class `TreeSequenceBuilder`.  `mutations` is the
insertion-ordered association list standing for the `defaultdict(list)` from
site id to its `(node, derived_state)` pairs. -/
structure TreeSequenceBuilder where
  num_nodes : ℕ
  sequence_length : ℚ
  positions : List ℚ
  recombination_rate : List ℚ
  time : List ℚ
  flags : List ℕ
  mutations : List (ℕ × List (ℕ × ℕ))
  edges : List Edge
  removal_order : List ℕ
deriving DecidableEq

/-- Mirrors `TreeSequenceBuilder.__init__` (`removal_order` starts empty; the
source leaves it unset until the first `__index_edges`). -/
def TreeSequenceBuilder.init (sequence_length : ℚ) (positions recombination_rate : List ℚ) :
    TreeSequenceBuilder :=
  ⟨0, sequence_length, positions, recombination_rate, [], [], [], [], []⟩

def TreeSequenceBuilder.num_sites (t : TreeSequenceBuilder) : ℕ := t.positions.length

/-- Node time used by the edge sort keys: `self.time[e.parent]`. -/
def timeOf (time : List ℚ) (u : ℕ) : ℚ := time.getD u 0

/-- Sort key order of `__index_edges` for the edge list: lexicographic on
`(left, time[parent])`. -/
def insKeyLe (time : List ℚ) (e f : Edge) : Prop :=
  e.left < f.left ∨ (e.left = f.left ∧ timeOf time e.parent ≤ timeOf time f.parent)

instance (time : List ℚ) : DecidableRel (insKeyLe time) := by
  intro e f
  unfold insKeyLe
  infer_instance

/-- Sort key order of `__index_edges` for `removal_order`, on edge indices:
lexicographic on `(right, -time[parent])`. -/
def remKeyLe (time : List ℚ) (edges : List Edge) (i j : ℕ) : Prop :=
  (edges.getD i default).right < (edges.getD j default).right ∨
    ((edges.getD i default).right = (edges.getD j default).right ∧
      timeOf time (edges.getD j default).parent ≤ timeOf time (edges.getD i default).parent)

instance (time : List ℚ) (edges : List Edge) : DecidableRel (remKeyLe time edges) := by
  intro i j
  unfold remKeyLe
  infer_instance

/-- Mirrors `TreeSequenceBuilder.__index_edges`: stable-sort the edge list by
`(left, time[parent])` and recompute `removal_order` as the indices sorted by
`(right, -time[parent])`.  Insertion sort is a stable sort, as is Python's. -/
def TreeSequenceBuilder.index_edges (t : TreeSequenceBuilder) : TreeSequenceBuilder :=
  let sorted := t.edges.insertionSort (insKeyLe t.time)
  let M := sorted.length
  { t with edges := sorted,
           removal_order := (List.range M).insertionSort (remKeyLe t.time sorted) }

/-- Mirrors `TreeSequenceBuilder.add_node`. -/
def TreeSequenceBuilder.add_node (t : TreeSequenceBuilder) (time : ℚ)
    (is_sample : Bool := true) : TreeSequenceBuilder :=
  { t with num_nodes := t.num_nodes + 1,
           time := t.time ++ [time],
           flags := t.flags ++ [if is_sample then 1 else 0] }

/-- Behaviour of `self.mutations[s].append((u, d))` on the insertion-ordered
`defaultdict(list)`. -/
def mutAppend : List (ℕ × List (ℕ × ℕ)) → ℕ → ℕ × ℕ → List (ℕ × List (ℕ × ℕ))
  | [], s, v => [(s, [v])]
  | (k, l) :: rest, s, v =>
    if k = s then (k, l ++ [v]) :: rest else (k, l) :: mutAppend rest s v

/-- Mirrors `TreeSequenceBuilder.restore_nodes`. -/
def TreeSequenceBuilder.restore_nodes (t : TreeSequenceBuilder) (time : List ℚ) :
    TreeSequenceBuilder :=
  time.foldl (fun acc x => acc.add_node x) t

/-- Mirrors `TreeSequenceBuilder.restore_edges` (zips truncate to the
shortest input, as in Python). -/
def TreeSequenceBuilder.restore_edges (t : TreeSequenceBuilder)
    (left right parent child : List ℕ) : TreeSequenceBuilder :=
  let newEdges := ((left.zip right).zip (parent.zip child)).map
    (fun lrpc => Edge.mk lrpc.1.1 lrpc.1.2 lrpc.2.1 lrpc.2.2)
  TreeSequenceBuilder.index_edges { t with edges := t.edges ++ newEdges }

/-- Mirrors `TreeSequenceBuilder.restore_mutations` (the `parent` argument is
ignored by the source too). -/
def TreeSequenceBuilder.restore_mutations (t : TreeSequenceBuilder)
    (site node derived_state : List ℕ) : TreeSequenceBuilder :=
  let newMuts := (site.zip (node.zip derived_state)).foldl
    (fun m sud => mutAppend m sud.1 (sud.2.1, sud.2.2)) t.mutations
  { t with mutations := newMuts }

/-- Mirrors `TreeSequenceBuilder.update`: append `num_nodes` nodes at `time`,
append the given edges and mutations, then re-index both edge orderings. -/
def TreeSequenceBuilder.update (t : TreeSequenceBuilder) (num_nodes : ℕ) (time : ℚ)
    (left right parent child : List ℕ) (site node derived_state : List ℕ) :
    TreeSequenceBuilder :=
  let t1 := (List.range num_nodes).foldl (fun acc _ => acc.add_node time) t
  let newEdges := ((left.zip right).zip (parent.zip child)).map
    (fun lrpc => Edge.mk lrpc.1.1 lrpc.1.2 lrpc.2.1 lrpc.2.2)
  let t2 := { t1 with edges := t1.edges ++ newEdges }
  let newMuts := (site.zip (node.zip derived_state)).foldl
    (fun m sud => mutAppend m sud.1 (sud.2.1, sud.2.2)) t2.mutations
  let t3 := { t2 with mutations := newMuts }
  TreeSequenceBuilder.index_edges t3

/-- Mirrors the `TreeSequenceBuilder.num_mutations` property: the total
number of stored mutations over all sites. -/
def TreeSequenceBuilder.num_mutations (t : TreeSequenceBuilder) : ℕ :=
  (t.mutations.map (fun kv => kv.2.length)).sum

/-- Mirrors `TreeSequenceBuilder.dump_nodes`. -/
def TreeSequenceBuilder.dump_nodes (t : TreeSequenceBuilder) : List ℕ × List ℚ :=
  (t.flags, t.time.take t.num_nodes)

/-- Mirrors `TreeSequenceBuilder.dump_edges`. -/
def TreeSequenceBuilder.dump_edges (t : TreeSequenceBuilder) :
    List ℕ × List ℕ × List ℕ × List ℕ :=
  (t.edges.map Edge.left, t.edges.map Edge.right,
   t.edges.map Edge.parent, t.edges.map Edge.child)

/-- Write into a fixed-size numpy array: `none` models the `IndexError`
raised on an out-of-range index. -/
def setChecked {α : Type*} (l : List α) (i : ℕ) (x : α) : Option (List α) :=
  if i < l.length then some (l.set i x) else none

/-- One row group of `dump_mutations` (the inner loop over
`self.mutations[l]`): `p` is the row index of the first mutation at the
site; each row writes `site, node, derived_state` and `parent = p` for a
back-mutation (`d = 0`), `-1` otherwise. -/
def dumpMutationsSite (l : ℕ) (p : ℕ) :
    List (ℕ × ℕ) → (List ℤ × List ℤ × List ℤ × List ℤ × ℕ) →
      Option (List ℤ × List ℤ × List ℤ × List ℤ × ℕ)
  | [], st => some st
  | (u, d) :: rest, (site, node, der, par, j) => do
    let site2 ← setChecked site j (l : ℤ)
    let node2 ← setChecked node j (u : ℤ)
    let der2 ← setChecked der j (d : ℤ)
    let par2 ← setChecked par j (if d = 0 then (p : ℤ) else -1)
    dumpMutationsSite l p rest (site2, node2, der2, par2, j + 1)

/-- Mirrors `TreeSequenceBuilder.dump_mutations`.  Note the source allocates
`num_mutations = len(self.mutations)` rows, i.e. one per *site carrying a
mutation*, not one per mutation, then writes one row per mutation over the
sites in ascending order. -/
def TreeSequenceBuilder.dump_mutations (t : TreeSequenceBuilder) :
    Option (List ℤ × List ℤ × List ℤ × List ℤ) := do
  let num := t.mutations.length
  let keys := (t.mutations.map (fun kv => kv.1)).insertionSort (· ≤ ·)
  let init : List ℤ × List ℤ × List ℤ × List ℤ × ℕ :=
    (List.replicate num 0, List.replicate num 0, List.replicate num 0,
     List.replicate num 0, 0)
  let res ← keys.foldlM
    (fun st l => dumpMutationsSite l st.2.2.2.2 ((t.mutations.lookup l).getD []) st) init
  pure (res.1, res.2.1, res.2.2.1, res.2.2.2.1)

theorem insKeyLe_total (time : List ℚ) : ∀ e f, insKeyLe time e f ∨ insKeyLe time f e := by
  intro e f
  unfold insKeyLe
  rcases lt_trichotomy e.left f.left with h | h | h
  · exact Or.inl (Or.inl h)
  · rcases le_total (timeOf time e.parent) (timeOf time f.parent) with h' | h'
    · exact Or.inl (Or.inr ⟨h, h'⟩)
    · exact Or.inr (Or.inr ⟨h.symm, h'⟩)
  · exact Or.inr (Or.inl h)

theorem insKeyLe_trans (time : List ℚ) :
    ∀ e f g, insKeyLe time e f → insKeyLe time f g → insKeyLe time e g := by
  unfold insKeyLe
  rintro e f g (h1 | ⟨h1, h1'⟩) (h2 | ⟨h2, h2'⟩)
  · exact Or.inl (h1.trans h2)
  · exact Or.inl (h2 ▸ h1)
  · exact Or.inl (h1 ▸ h2)
  · exact Or.inr ⟨h1.trans h2, h1'.trans h2'⟩

theorem remKeyLe_total (time : List ℚ) (edges : List Edge) :
    ∀ i j, remKeyLe time edges i j ∨ remKeyLe time edges j i := by
  intro i j
  unfold remKeyLe
  rcases lt_trichotomy (edges.getD i default).right (edges.getD j default).right with h | h | h
  · exact Or.inl (Or.inl h)
  · rcases le_total (timeOf time (edges.getD j default).parent)
        (timeOf time (edges.getD i default).parent) with h' | h'
    · exact Or.inl (Or.inr ⟨h, h'⟩)
    · exact Or.inr (Or.inr ⟨h.symm, h'⟩)
  · exact Or.inr (Or.inl h)

theorem remKeyLe_trans (time : List ℚ) (edges : List Edge) :
    ∀ i j k, remKeyLe time edges i j → remKeyLe time edges j k → remKeyLe time edges i k := by
  unfold remKeyLe
  rintro i j k (h1 | ⟨h1, h1'⟩) (h2 | ⟨h2, h2'⟩)
  · exact Or.inl (h1.trans h2)
  · exact Or.inl (h2 ▸ h1)
  · exact Or.inl (h1 ▸ h2)
  · exact Or.inr ⟨h1.trans h2, h2'.trans h1'⟩

/-- The two derived edge orderings demanded of a builder state: the edge
list is non-decreasing in `(left, time[parent])`, and `removal_order` is a
permutation of the edge indices that is non-decreasing in
`(right, -time[parent])`. -/
def edgesIndexedOK (t : TreeSequenceBuilder) : Prop :=
  t.edges.Pairwise (insKeyLe t.time) ∧
  t.removal_order.Perm (List.range t.edges.length) ∧
  t.removal_order.Pairwise (remKeyLe t.time t.edges)

theorem index_edges_ok (t : TreeSequenceBuilder) : edgesIndexedOK t.index_edges := by
  unfold TreeSequenceBuilder.index_edges edgesIndexedOK
  haveI h1 : IsTotal Edge (insKeyLe t.time) := ⟨insKeyLe_total t.time⟩
  haveI h2 : IsTrans Edge (insKeyLe t.time) := ⟨insKeyLe_trans t.time⟩
  refine ⟨List.sorted_insertionSort _ _, ?_, ?_⟩
  · exact List.perm_insertionSort _ _
  · haveI h3 : IsTotal ℕ (remKeyLe t.time (t.edges.insertionSort (insKeyLe t.time))) :=
      ⟨remKeyLe_total t.time _⟩
    haveI h4 : IsTrans ℕ (remKeyLe t.time (t.edges.insertionSort (insKeyLe t.time))) :=
      ⟨remKeyLe_trans t.time _⟩
    exact List.sorted_insertionSort _ _

/-- Claim C6: after every `update` call and after every `restore_edges` call,
the edge list is sorted so that the key `(left, time[parent])` is
non-decreasing along it, and `removal_order` is a permutation of the edge
indices along which `(right, -time[parent])` is non-decreasing. -/
theorem C6_update_reindexes_edges :
    (∀ (t : TreeSequenceBuilder) (num_nodes : ℕ) (time : ℚ)
        (left right parent child site node derived_state : List ℕ),
      edgesIndexedOK (t.update num_nodes time left right parent child site node derived_state)) ∧
    (∀ (t : TreeSequenceBuilder) (left right parent child : List ℕ),
      edgesIndexedOK (t.restore_edges left right parent child)) := by
  constructor
  · intro t num_nodes time left right parent child site node derived_state
    unfold TreeSequenceBuilder.update
    exact index_edges_ok _
  · intro t left right parent child
    unfold TreeSequenceBuilder.restore_edges
    exact index_edges_ok _

/-- Claim C1: `dump_mutations` is claimed to return one row per mutation.
The source allocates `len(self.mutations)` rows — one per *site* carrying a
mutation — yet writes one row per mutation, so any site with a back-mutation
(two entries) overruns the arrays and raises `IndexError`.  After a single
`update` that stores the canonical mutation and one back-mutation at site 0,
the builder's own `num_mutations` property reports 2 rows while
`dump_mutations` fails (`none`). -/
theorem C1_dump_mutations_allocation_bug :
    TreeSequenceBuilder.num_mutations
        ((TreeSequenceBuilder.init 2 [1] [0]).update 1 1 [] [] [] [] [0, 0] [0, 0] [1, 0]) = 2 ∧
    TreeSequenceBuilder.dump_mutations
        ((TreeSequenceBuilder.init 2 [1] [0]).update 1 1 [] [] [] [] [0, 0] [0, 0] [1, 0]) = none := by
  constructor
  · rfl
  · rfl

/-! Embedding of class `AncestorMatcher`.  Numpy float arrays become lists of
rationals; the sentinel regimes (-2 non-tree, -1 compressed, ≥ 0 explicit)
are kept verbatim.  Ancestor walks carry fuel and return `none` when the
fuel runs out, modelling a walk that never terminates; `none` also models
`assert` failures and `IndexError`. -/

def NULL_NODE : ℤ := -1

/-- Numpy-style read of an integer array at a possibly negative index
(negative indices wrap from the end, as numpy's do). -/
def npGetZ (l : List ℤ) (i : ℤ) : ℤ :=
  if i < 0 then l.getD (l.length - (-i).toNat) (-1) else l.getD i.toNat (-1)

/-- Numpy-style read of a float array at a possibly negative index. -/
def npGetQ (l : List ℚ) (i : ℤ) : ℚ :=
  if i < 0 then l.getD (l.length - (-i).toNat) 0 else l.getD i.toNat 0

/-- Numpy-style write of an integer array at a possibly negative index. -/
def npSetZ (l : List ℤ) (i : ℤ) (x : ℤ) : List ℤ :=
  if i < 0 then l.set (l.length - (-i).toNat) x else l.set i.toNat x

/-- Numpy-style write of a float array at a possibly negative index. -/
def npSetQ (l : List ℚ) (i : ℤ) (x : ℚ) : List ℚ :=
  if i < 0 then l.set (l.length - (-i).toNat) x else l.set i.toNat x

/-- The inputs `AncestorMatcher` reads from its `tree_sequence_builder` and
its own parameters.  `recombProbs` holds the per-site value
`r = 1 - exp(-recombination_rate[site] / num_nodes)` as a rational input,
since `exp` is transcendental; the code derives everything else from `r`. -/
structure MatchContext where
  num_nodes : ℕ
  num_sites : ℕ
  positions : List ℚ
  recombProbs : List ℚ
  err : ℚ
  edges : List Edge
  removal_order : List ℕ
  mutations : List (ℕ × List (ℕ × ℕ))
deriving DecidableEq

/-- Builds the matcher's view of a `TreeSequenceBuilder`. -/
def MatchContext.ofBuilder (t : TreeSequenceBuilder) (recombProbs : List ℚ) (err : ℚ) :
    MatchContext :=
  ⟨t.num_nodes, t.num_sites, t.positions, recombProbs, err, t.edges,
   t.removal_order, t.mutations⟩

/-- The per-call state of `AncestorMatcher.find_path`: the five linked-tree
arrays, the per-site traceback snapshots (insertion-ordered association
lists standing for dicts), and the likelihood data. -/
structure MatcherState where
  parent : List ℤ
  left_child : List ℤ
  right_child : List ℤ
  left_sib : List ℤ
  right_sib : List ℤ
  traceback : List (List (ℕ × ℚ))
  likelihood : List ℚ
  likelihood_nodes : List ℕ
deriving DecidableEq

/-- Mirrors `AncestorMatcher.remove_edge`. -/
def remove_edge (st : MatcherState) (e : Edge) : MatcherState :=
  let p := e.parent
  let c := e.child
  let lsib := st.left_sib.getD c (-1)
  let rsib := st.right_sib.getD c (-1)
  let st1 :=
    if lsib = NULL_NODE then { st with left_child := st.left_child.set p rsib }
    else { st with right_sib := npSetZ st.right_sib lsib rsib }
  let st2 :=
    if rsib = NULL_NODE then { st1 with right_child := st1.right_child.set p lsib }
    else { st1 with left_sib := npSetZ st1.left_sib rsib lsib }
  { st2 with parent := st2.parent.set c NULL_NODE,
             left_sib := st2.left_sib.set c NULL_NODE,
             right_sib := st2.right_sib.set c NULL_NODE }

/-- Mirrors `AncestorMatcher.insert_edge`. -/
def insert_edge (st : MatcherState) (e : Edge) : MatcherState :=
  let p := e.parent
  let c := e.child
  let st0 := { st with parent := st.parent.set c (p : ℤ) }
  let u := st0.right_child.getD p (-1)
  let st1 :=
    if u = NULL_NODE then
      { st0 with left_child := st0.left_child.set p (c : ℤ),
                 left_sib := st0.left_sib.set c NULL_NODE,
                 right_sib := st0.right_sib.set c NULL_NODE }
    else
      { st0 with right_sib := (npSetZ st0.right_sib u (c : ℤ)).set c NULL_NODE,
                 left_sib := st0.left_sib.set c u }
  { st1 with right_child := st1.right_child.set p (c : ℤ) }

/-- Mirrors `AncestorMatcher.is_nonzero_root`. -/
def is_nonzero_root (st : MatcherState) (u : ℕ) : Prop :=
  u ≠ 0 ∧ st.parent.getD u (-1) = -1 ∧ st.left_child.getD u (-1) = -1

instance (st : MatcherState) (u : ℕ) : Decidable (is_nonzero_root st u) := by
  unfold is_nonzero_root
  infer_instance

/-- Mirrors `AncestorMatcher.approximately_equal` (PEP-485 style closeness
with `rel_tol = 1e-9`, `abs_tol = 0`). -/
def approximately_equal (a b : ℚ) : Prop :=
  |a - b| ≤ max ((1 / 1000000000) * max |a| |b|) 0

instance (a b : ℚ) : Decidable (approximately_equal a b) := by
  unfold approximately_equal
  infer_instance

/-- Mirrors `AncestorMatcher.approximately_one`. -/
def approximately_one (a : ℚ) : Prop := approximately_equal a 1

instance (a : ℚ) : Decidable (approximately_one a) := by
  unfold approximately_one
  infer_instance

/-- The ancestor walk of the module-level `is_descendant`:
`while w != v and w != NULL_NODE: w = pi[w]`. -/
def isDescWalk (pi : List ℤ) (v : ℤ) : ℕ → ℤ → Option ℤ
  | 0, w => if w = v ∨ w = NULL_NODE then some w else none
  | fuel + 1, w =>
    if w = v ∨ w = NULL_NODE then some w else isDescWalk pi v fuel (npGetZ pi w)

/-- Mirrors the module-level `is_descendant(pi, u, v)`, including its
`if u < v: assert not ret` self-check. -/
def is_descendant (pi : List ℤ) (u v : ℤ) : Option Bool := do
  let ret ←
    if v = NULL_NODE then pure false
    else do
      let w ← isDescWalk pi v (pi.length + 1) u
      pure (decide (w = v))
  if u < v ∧ ret = true then none else pure ret

/-- The dict comprehension of `AncestorMatcher.store_traceback`:
`{u: likelihood[u] for u in likelihood_nodes}` in iteration order. -/
def snapshot (st : MatcherState) : List (ℕ × ℚ) :=
  st.likelihood_nodes.map (fun u => (u, st.likelihood.getD u 0))

/-- Mirrors `AncestorMatcher.store_traceback`. -/
def store_traceback (st : MatcherState) (site : ℕ) : Option MatcherState :=
  (setChecked st.traceback site (snapshot st)).map (fun tb => { st with traceback := tb })

/-- Python's `==` on two dicts represented as association lists: equal key
sets and equal values. -/
def dictEqb (a b : List (ℕ × ℚ)) : Bool :=
  a.all (fun kv => b.lookup kv.1 == a.lookup kv.1) &&
  b.all (fun kv => a.lookup kv.1 == b.lookup kv.1)

/-- Mirrors `AncestorMatcher.check_likelihoods` (a pure conjunction of the
loop's assertions). -/
def check_likelihoods (st : MatcherState) : Prop :=
  (∀ u ∈ st.likelihood_nodes, 0 ≤ st.likelihood.getD u 0) ∧
  (∀ u < st.likelihood.length,
    (0 ≤ st.likelihood.getD u 0 → u ∈ st.likelihood_nodes) ∧
    (u ≠ 0 → st.parent.getD u (-1) = -1 → st.left_child.getD u (-1) = -1 →
      st.likelihood.getD u 0 = -2))

instance (st : MatcherState) : Decidable (check_likelihoods st) := by
  unfold check_likelihoods
  infer_instance

/-- Walk `while likelihood[u] == -1: u = parent[u]` (mutation-node value
inheritance in `update_site`). -/
def walkL (likelihood : List ℚ) (par : List ℤ) : ℕ → ℤ → Option ℤ
  | 0, u => if npGetQ likelihood u = -1 then none else some u
  | f + 1, u =>
    if npGetQ likelihood u = -1 then walkL likelihood par f (npGetZ par u) else some u

/-- Walk `while likelihood[v] == -1 and L_cache[v] == -1: v = parent[v]`
(compression and edge-removal inheritance). -/
def walkLC (likelihood lcache : List ℚ) (par : List ℤ) : ℕ → ℤ → Option ℤ
  | 0, v => if npGetQ likelihood v = -1 ∧ npGetQ lcache v = -1 then none else some v
  | f + 1, v =>
    if npGetQ likelihood v = -1 ∧ npGetQ lcache v = -1 then
      walkLC likelihood lcache par f (npGetZ par v)
    else some v

/-- Fill walk `while likelihood[v] == -1 and L_cache[v] == -1:
L_cache[v] = val; v = parent[v]`. -/
def fillLC (likelihood : List ℚ) (par : List ℤ) (val : ℚ) :
    ℕ → List ℚ → ℤ → Option (List ℚ)
  | 0, lcache, v =>
    if npGetQ likelihood v = -1 ∧ npGetQ lcache v = -1 then none else some lcache
  | f + 1, lcache, v =>
    if npGetQ likelihood v = -1 ∧ npGetQ lcache v = -1 then
      fillLC likelihood par val f (npSetQ lcache v val) (npGetZ par v)
    else some lcache

/-- Reset walk `while v != -1 and L_cache[v] != -1: L_cache[v] = -1;
v = parent[v]` (end of `compress_likelihoods`). -/
def clearLC (par : List ℤ) : ℕ → List ℚ → ℤ → Option (List ℚ)
  | 0, lcache, v => if v ≠ -1 ∧ npGetQ lcache v ≠ -1 then none else some lcache
  | f + 1, lcache, v =>
    if v ≠ -1 ∧ npGetQ lcache v ≠ -1 then clearLC par f (npSetQ lcache v (-1)) (npGetZ par v)
    else some lcache

/-- Intermediate state of the loop over `likelihood_nodes` in
`compress_likelihoods`. -/
structure CompAcc where
  likelihood : List ℚ
  lcache : List ℚ
  cached_paths : List ℤ
  nodes : List ℕ
deriving DecidableEq

/-- One iteration of the `compress_likelihoods` loop for a node `u`: find
the decoded likelihood of `u`'s parent through the cache, delete `u`'s
explicit value when it matches, and keep `u` in `likelihood_nodes` iff its
value stayed non-negative. -/
def compressStep (par : List ℤ) (acc : CompAcc) (u : ℕ) : Option CompAcc := do
  let _ ← acc.likelihood[u]?
  let p ← par[u]?
  if p ≠ -1 then do
    let cached2 := acc.cached_paths ++ [p]
    let v ← walkLC acc.likelihood acc.lcache par (par.length + 1) p
    let lp0 := npGetQ acc.lcache v
    let lp := if lp0 = -1 then npGetQ acc.likelihood v else lp0
    let lcache2 ← fillLC acc.likelihood par lp (par.length + 1) acc.lcache p
    let lik2 :=
      if acc.likelihood.getD u 0 = lp then acc.likelihood.set u (-1) else acc.likelihood
    let nodes2 := if 0 ≤ lik2.getD u 0 then acc.nodes ++ [u] else acc.nodes
    pure ⟨lik2, lcache2, cached2, nodes2⟩
  else
    let nodes2 := if 0 ≤ acc.likelihood.getD u 0 then acc.nodes ++ [u] else acc.nodes
    pure ⟨acc.likelihood, acc.lcache, acc.cached_paths, nodes2⟩

/-- Mirrors `AncestorMatcher.compress_likelihoods` up to its final
`assert np.all(L_cache == -1)`: returns the new state plus the scratch
cache. -/
def compressAux (st : MatcherState) : Option (MatcherState × List ℚ) := do
  let lcache0 : List ℚ := List.replicate st.likelihood.length (-1)
  let acc ← st.likelihood_nodes.foldlM (compressStep st.parent)
    (CompAcc.mk st.likelihood lcache0 [] [])
  let lcache ← acc.cached_paths.foldlM
    (fun ch p => clearLC st.parent (st.parent.length + 1) ch p) acc.lcache
  pure ({ st with likelihood := acc.likelihood, likelihood_nodes := acc.nodes }, lcache)

/-- Mirrors `AncestorMatcher.compress_likelihoods` including the final
cache assertion. -/
def compress_likelihoods (st : MatcherState) : Option MatcherState := do
  let res ← compressAux st
  if res.2.all (fun x => x = -1) then pure res.1 else none

/-- Walk `while v != -1 and v != mutation_node and path_cache[v] == -1:
v = parent[v]` (descendant test in `update_site`). -/
def walkPC (cache par : List ℤ) (mn : ℤ) : ℕ → ℤ → Option ℤ
  | 0, v => if v ≠ -1 ∧ v ≠ mn ∧ npGetZ cache v = -1 then none else some v
  | f + 1, v =>
    if v ≠ -1 ∧ v ≠ mn ∧ npGetZ cache v = -1 then walkPC cache par mn f (npGetZ par v)
    else some v

/-- Fill walk `while v != -1 and v != mutation_node and path_cache[v] == -1:
path_cache[v] = d; v = parent[v]`. -/
def fillPC (par : List ℤ) (mn : ℤ) (dval : ℤ) : ℕ → List ℤ → ℤ → Option (List ℤ)
  | 0, cache, v => if v ≠ -1 ∧ v ≠ mn ∧ npGetZ cache v = -1 then none else some cache
  | f + 1, cache, v =>
    if v ≠ -1 ∧ v ≠ mn ∧ npGetZ cache v = -1 then
      fillPC par mn dval f (npSetZ cache v dval) (npGetZ par v)
    else some cache

/-- Reset walk `while v != -1 and path_cache[v] != -1: path_cache[v] = -1;
v = parent[v]` (normalisation loop of `update_site`). -/
def clearPC (par : List ℤ) : ℕ → List ℤ → ℤ → Option (List ℤ)
  | 0, cache, v => if v ≠ -1 ∧ npGetZ cache v ≠ -1 then none else some cache
  | f + 1, cache, v =>
    if v ≠ -1 ∧ npGetZ cache v ≠ -1 then clearPC par f (npSetZ cache v (-1)) (npGetZ par v)
    else some cache

/-- State of the likelihood-update loop in `update_site`. -/
structure LikAcc where
  likelihood : List ℚ
  cache : List ℤ
  maxL : ℚ
deriving DecidableEq

/-- One iteration of the likelihood-update loop of `update_site` for a node
`u`: compute the descendant flag `d` through the path cache (checked
against `is_descendant`, as the source asserts), fill the cache, and set
`likelihood[u] = max(x, y) * emission`, tracking the running maximum. -/
def likLoopStep (par : List ℤ) (mn : ℤ) (noRec recP dist err : ℚ) (state : ℕ)
    (acc : LikAcc) (u : ℕ) : Option LikAcc := do
  let v ← walkPC acc.cache par mn (par.length + 1) (u : ℤ)
  let d : Bool :=
    if v ≠ -1 ∧ npGetZ acc.cache v ≠ -1 then npGetZ acc.cache v = 1
    else v = mn
  let dref ← is_descendant par (u : ℤ) mn
  if d ≠ dref then none
  else do
    let cache2 ← fillPC par mn (if d then 1 else 0) (par.length + 1) acc.cache (u : ℤ)
    let x := acc.likelihood.getD u 0 * noRec * dist
    if x < 0 then none
    else do
      let y := recP * dist
      let z := if y < x then x else y
      let dq : ℚ := if d then 1 else 0
      let emission :=
        if state = 1 then (1 - err) * dq + err * (1 - dq)
        else err * dq + (1 - err) * (1 - dq)
      let newval := z * emission
      let maxL2 := if acc.maxL < newval then newval else acc.maxL
      pure (LikAcc.mk (acc.likelihood.set u newval) cache2 maxL2)

/-- One iteration of the normalisation loop of `update_site` for a node `u`:
divide its likelihood by the maximum and clear the path cache along its
ancestor chain. -/
def normStep (par : List ℤ) (maxL : ℚ) (acc : List ℚ × List ℤ) (u : ℕ) :
    Option (List ℚ × List ℤ) := do
  let lik2 := acc.1.set u (acc.1.getD u 0 / maxL)
  let cache2 ← clearPC par (par.length + 1) acc.2 (u : ℤ)
  pure (lik2, cache2)

/-- The part of `update_site` from `store_traceback` onwards (shared by the
mutation and the `err > 0` no-mutation paths): likelihood recomputation,
the `max_L > 0` assertion, normalisation, path-cache reset check, and
compression. -/
def updateSiteMain (ctx : MatchContext) (st : MatcherState) (site state : ℕ)
    (mn : ℤ) (recP noRec : ℚ) : Option MatcherState := do
  let st1 ← store_traceback st site
  let dist : ℚ :=
    if 0 < site then ctx.positions.getD site 0 - ctx.positions.getD (site - 1) 0 else 1
  let cache0 : List ℤ := List.replicate ctx.num_nodes (-1)
  let acc ← st1.likelihood_nodes.foldlM
    (likLoopStep st1.parent mn noRec recP dist ctx.err state)
    (LikAcc.mk st1.likelihood cache0 (-1))
  if acc.maxL ≤ 0 then none
  else do
    let res ← st1.likelihood_nodes.foldlM (normStep st1.parent acc.maxL)
      (acc.likelihood, acc.cache)
    if res.2.all (fun x => x = -1) then
      compress_likelihoods { st1 with likelihood := res.1 }
    else none

/-- Mirrors `AncestorMatcher.update_site`.  The no-mutation `err == 0` path
stores the traceback and returns without touching the likelihoods (checking
its two assertions); otherwise the mutation node inherits an explicit value
if compressed and the main update runs. -/
def update_site (ctx : MatchContext) (st : MatcherState) (site state : ℕ) :
    Option MatcherState := do
  let n := ctx.num_nodes
  let r := ctx.recombProbs.getD site 0
  let recomb_proba := r / (n : ℚ)
  let no_recomb_proba := 1 - r + r / (n : ℚ)
  match ctx.mutations.lookup site with
  | none =>
    if ctx.err = 0 then do
      if state = 0 ∧ st.likelihood_nodes = [] then none
      else do
        let st2 ← store_traceback st site
        if 0 < site ∧ (ctx.mutations.lookup (site - 1)).isNone then
          if dictEqb (st2.traceback.getD site []) (st2.traceback.getD (site - 1) []) then
            pure st2
          else none
        else pure st2
    else updateSiteMain ctx st site state NULL_NODE recomb_proba no_recomb_proba
  | some muts => do
    let mn ← muts.head?.map (fun x => x.1)
    let lv ← st.likelihood[mn]?
    let st2 ←
      if lv = -1 then do
        let u ← walkL st.likelihood st.parent (st.parent.length + 1) (mn : ℤ)
        pure { st with likelihood := st.likelihood.set mn (npGetQ st.likelihood u),
                       likelihood_nodes := st.likelihood_nodes ++ [mn] }
      else pure st
    updateSiteMain ctx st2 site state (mn : ℤ) recomb_proba no_recomb_proba

/-- Mirrors `AncestorMatcher.get_max_likelihood_node` (including its
`assert u != -1`). -/
def get_max_likelihood_node (st : MatcherState) : Option ℕ := do
  let res ← st.likelihood_nodes.foldlM
    (fun (acc : ℤ × ℚ) (node : ℕ) => do
      let lv ← st.likelihood[node]?
      if acc.2 < lv then pure ((node : ℤ), lv) else pure acc)
    ((-1 : ℤ), (-1 : ℚ))
  if res.1 = -1 then none else pure res.1.toNat

/-- Mirrors `AncestorMatcher.get_max_likelihood_traceback_node`. -/
def get_max_likelihood_traceback_node (L : List (ℕ × ℚ)) : Option ℕ :=
  let res := L.foldl
    (fun (acc : ℤ × ℚ) kv => if acc.2 < kv.2 then ((kv.1 : ℤ), kv.2) else acc)
    ((-1 : ℤ), (-1 : ℚ))
  if res.1 = -1 then none else some res.1.toNat

/-- Read `edges[removal_order[k]]`; `none` models the `IndexError` on an
out-of-range index. -/
def lookupRemoval (ctx : MatchContext) (k : ℕ) : Option Edge := do
  let oi ← ctx.removal_order[k]?
  ctx.edges[oi]?

/-- The initial removal loop of `find_path`:
`while edges[O[k]].right == pos: remove_edge; k += 1` (the source indexes
`O[k]` before testing `k < M`, so running past the end raises). -/
def initRemoveLoop (ctx : MatchContext) (pos : ℕ) :
    ℕ → ℕ → MatcherState → Option (ℕ × MatcherState)
  | 0, _, _ => none
  | f + 1, k, st => do
    let e ← lookupRemoval ctx k
    if e.right = pos then initRemoveLoop ctx pos f (k + 1) (remove_edge st e)
    else some (k, st)

/-- The initial insertion loop of `find_path`:
`while j < M and edges[j].left == pos: insert_edge; j += 1`. -/
def initInsertLoop (ctx : MatchContext) (pos : ℕ) :
    ℕ → ℕ → MatcherState → Option (ℕ × MatcherState)
  | 0, _, _ => none
  | f + 1, j, st =>
    match ctx.edges[j]? with
    | none => some (j, st)
    | some e =>
      if e.left = pos then initInsertLoop ctx pos f (j + 1) (insert_edge st e)
      else some (j, st)

/-- The tree-building loop of `find_path` that advances to genomic position
`start`: `while j < M and k < M and edges[j].left <= start`. -/
def initLoop (ctx : MatchContext) (start : ℕ) :
    ℕ → ℕ → ℕ → ℕ → ℕ → ℕ → MatcherState → Option (ℕ × ℕ × ℕ × ℕ × MatcherState)
  | 0, _, _, _, _, _, _ => none
  | f + 1, j, k, left, right, pos, st =>
    match ctx.edges[j]? with
    | none => some (j, k, left, right, st)
    | some ej =>
      if k < ctx.edges.length ∧ ej.left ≤ start then do
        let res1 ← initRemoveLoop ctx pos (ctx.edges.length + 1) k st
        let res2 ← initInsertLoop ctx pos (ctx.edges.length + 1) j res1.2
        let left2 := pos
        let right2 := ctx.num_sites
        let right3 :=
          match ctx.edges[res2.1]? with
          | some e => min right2 e.left
          | none => right2
        let right4 ←
          if res1.1 < ctx.edges.length then do
            let e ← lookupRemoval ctx res1.1
            pure (min right3 e.right)
          else pure right3
        initLoop ctx start f res2.1 res1.1 left2 right4 right4 res2.2
      else some (j, k, left, right, st)

/-- Root hygiene for one endpoint `u` of a just-removed edge: evict a
non-zero root from the likelihood data, flagging renormalisation when its
likelihood was approximately the current maximum 1. -/
def rootHygienePair (acc : Bool × MatcherState) (u : ℕ) : Bool × MatcherState :=
  let nr := acc.1
  let st := acc.2
  if is_nonzero_root st u then
    let nr2 := nr || decide (approximately_one (st.likelihood.getD u 0))
    let st2 := { st with
      likelihood := st.likelihood.set u (-2),
      likelihood_nodes :=
        if u ∈ st.likelihood_nodes then st.likelihood_nodes.erase u
        else st.likelihood_nodes }
    (nr2, st2)
  else (nr, st)

/-- Root hygiene for one removed edge `edges[O[l]]` (both endpoints). -/
def rootHygieneStep (ctx : MatchContext) (acc : Bool × MatcherState) (l : ℕ) :
    Option (Bool × MatcherState) := do
  let e ← lookupRemoval ctx l
  pure (rootHygienePair (rootHygienePair acc e.parent) e.child)

/-- Python's `max(likelihood[u] for u in likelihood_nodes)`; `none` models
the `ValueError` on an empty sequence. -/
def maxOverNodes (st : MatcherState) : Option ℚ :=
  match st.likelihood_nodes with
  | [] => none
  | u :: rest => some (rest.foldl (fun m v => max m (st.likelihood.getD v 0))
      (st.likelihood.getD u 0))

/-- Divide every likelihood in `likelihood_nodes` by `maxL`. -/
def normalizeAll (st : MatcherState) (maxL : ℚ) : MatcherState :=
  let lik := st.likelihood_nodes.foldl (fun lk u => lk.set u (lk.getD u 0 / maxL))
    st.likelihood
  { st with likelihood := lik }

/-- The edge-removal loop of the main sweep:
`while k < M and edges[O[k]].right == right`, with the compressed-child
value inheritance through `L_cache`. -/
def removalLoop (ctx : MatchContext) (right : ℕ) :
    ℕ → ℕ → MatcherState → List ℚ → Option (ℕ × MatcherState × List ℚ)
  | 0, _, _, _ => none
  | f + 1, k, st, lcache =>
    if k < ctx.edges.length then
      match lookupRemoval ctx k with
      | none => none
      | some e =>
        if e.right = right then do
          let st2 := remove_edge st e
          if st2.likelihood.getD e.child 0 = -1 then do
            let u ← walkLC st2.likelihood lcache st2.parent (st2.parent.length + 1)
              (e.parent : ℤ)
            let lc0 := npGetQ lcache u
            let lchild := if lc0 = -1 then npGetQ st2.likelihood u else lc0
            let lcache2 ← fillLC st2.likelihood st2.parent lchild
              (st2.parent.length + 1) lcache (e.parent : ℤ)
            let st3 := { st2 with
              likelihood := st2.likelihood.set e.child lchild,
              likelihood_nodes := st2.likelihood_nodes ++ [e.child] }
            removalLoop ctx right f (k + 1) st3 lcache2
          else removalLoop ctx right f (k + 1) st2 lcache
        else some (k, st, lcache)
    else some (k, st, lcache)

/-- Clear walk `while L_cache[u] != -1: L_cache[u] = -1; u = parent[u]`
(the source omits the `u != -1` guard here; numpy wraps index -1 to the
last entry, which `npGetQ`/`npSetQ` reproduce). -/
def clearLCnoGuard (par : List ℤ) : ℕ → List ℚ → ℤ → Option (List ℚ)
  | 0, lcache, u => if npGetQ lcache u ≠ -1 then none else some lcache
  | f + 1, lcache, u =>
    if npGetQ lcache u ≠ -1 then clearLCnoGuard par f (npSetQ lcache u (-1)) (npGetZ par u)
    else some lcache

/-- Clear the `L_cache` along the parent of removed edge `edges[O[l]]`. -/
def clearStep (ctx : MatchContext) (par : List ℤ) (lcache : List ℚ) (l : ℕ) :
    Option (List ℚ) := do
  let e ← lookupRemoval ctx l
  clearLCnoGuard par (par.length + 1) lcache (e.parent : ℤ)

/-- Activate an endpoint of a just-inserted edge: a `-2` (non-tree) node
gets likelihood 0 and joins `likelihood_nodes`. -/
def insertActivate (st : MatcherState) (u : ℕ) : MatcherState :=
  if st.likelihood.getD u 0 = -2 then
    { st with likelihood := st.likelihood.set u 0,
              likelihood_nodes := st.likelihood_nodes ++ [u] }
  else st

/-- The edge-insertion loop of the main sweep:
`while j < M and edges[j].left == left`. -/
def insertionLoop (ctx : MatchContext) (left : ℕ) :
    ℕ → ℕ → MatcherState → Option (ℕ × MatcherState)
  | 0, _, _ => none
  | f + 1, j, st =>
    match ctx.edges[j]? with
    | none => some (j, st)
    | some e =>
      if e.left = left then
        let st2 := insert_edge st e
        insertionLoop ctx left f (j + 1) (insertActivate (insertActivate st2 e.parent) e.child)
      else some (j, st)

/-- The main sweep of `find_path` (`while left < end`), advancing over
contiguous tree intervals. -/
def mainLoop (ctx : MatchContext) (h : List ℕ) (start endv : ℕ) :
    ℕ → ℕ → ℕ → ℕ → ℕ → ℕ → MatcherState → List ℚ → Option MatcherState
  | 0, _, _, _, _, _, _, _ => none
  | f + 1, j, k, left, right, remove_start, st, lcache =>
    if left < endv then
      if right ≤ left then none
      else do
        let hy ← (List.range' remove_start (k - remove_start)).foldlM
          (rootHygieneStep ctx) (false, st)
        let st2 ←
          if hy.1 then do
            let maxL ← maxOverNodes hy.2
            pure (normalizeAll hy.2 maxL)
          else pure hy.2
        if check_likelihoods st2 then do
          let st3 ← (List.range' (max left start) (min right endv - max left start)).foldlM
            (fun s site => do
              let hs ← h[site]?
              update_site ctx s site hs) st2
          let rem ← removalLoop ctx right (ctx.edges.length + 1) k st3 lcache
          let lcache3 ← (List.range' k (rem.1 - k)).foldlM (clearStep ctx rem.2.1.parent)
            rem.2.2
          if lcache3.all (fun x => x = -1) then do
            let left2 := right
            let ins ← insertionLoop ctx left2 (ctx.edges.length + 1) j rem.2.1
            let right2 := ctx.num_sites
            let right3 :=
              match ctx.edges[ins.1]? with
              | some e => min right2 e.left
              | none => right2
            let right4 ←
              if rem.1 < ctx.edges.length then do
                let e ← lookupRemoval ctx rem.1
                pure (min right3 e.right)
              else pure right3
            mainLoop ctx h start endv f ins.1 rem.1 left2 right4 k ins.2 lcache3
          else none
        else none
    else some st

/-! The backward traceback (`AncestorMatcher.run_traceback`). -/

/-- A (possibly still open) output edge of the traceback: `left` is only
meaningful once the edge is closed. -/
structure TBEdge where
  left : ℕ
  right : ℕ
  parent : ℤ
deriving DecidableEq

/-- State of the traceback sweep: the scratch `parent[]` array, the closed
output edges (most recent first), the open edge `(openR, openP)`, and the
matched haplotype. -/
structure TBState where
  par : List ℤ
  acc : List TBEdge
  openR : ℕ
  openP : ℤ
  mt : List ℕ
deriving DecidableEq

/-- Traceback loop `while k >= 0 and edges[k].left == pos:
parent[child] = -1; k -= 1`, with `kk = k + 1`. -/
def tbKLoop (ctx : MatchContext) (pos : ℕ) : ℕ → List ℤ → Option (ℕ × List ℤ)
  | 0, par => some (0, par)
  | kk + 1, par => do
    let e ← ctx.edges[kk]?
    if e.left = pos then tbKLoop ctx pos kk (par.set e.child (-1))
    else some (kk + 1, par)

/-- Traceback loop `while j >= 0 and edges[I[j]].right == pos:
parent[child] = parent; j -= 1`, with `jj = j + 1`. -/
def tbJLoop (ctx : MatchContext) (pos : ℕ) : ℕ → List ℤ → Option (ℕ × List ℤ)
  | 0, par => some (0, par)
  | jj + 1, par => do
    let oi ← ctx.removal_order[jj]?
    let e ← ctx.edges[oi]?
    if e.right = pos then tbJLoop ctx pos jj (par.set e.child (e.parent : ℤ))
    else some (jj + 1, par)

/-- Membership test `v in L` on a traceback dict. -/
def findInTB (L : List (ℕ × ℚ)) (v : ℤ) : Bool := L.any (fun kv => (kv.1 : ℤ) == v)

/-- Lookup `L[v]` on a traceback dict (callers establish membership). -/
def lookupTB (L : List (ℕ × ℚ)) (v : ℤ) : ℚ :=
  ((L.find? (fun kv => (kv.1 : ℤ) == v)).map (fun kv => kv.2)).getD 0

/-- Walk `while v not in L: v = parent[v]; assert v != -1`. -/
def tbWalk (par : List ℤ) (L : List (ℕ × ℚ)) : ℕ → ℤ → Option ℤ
  | 0, v => if findInTB L v then some v else none
  | f + 1, v =>
    if findInTB L v then some v
    else
      let v2 := npGetZ par v
      if v2 = -1 then none else tbWalk par L f v2

/-- The mutation part of one traceback site: set `match[l] = 1` when the
current node descends from the site's mutation node. -/
def tbMatchUpd (ctx : MatchContext) (par : List ℤ) (u : ℤ) (mt : List ℕ) (l : ℕ) :
    Option (List ℕ) :=
  match ctx.mutations.lookup l with
  | none => pure mt
  | some muts => do
    let mn ← muts.head?.map (fun x => (x.1 : ℤ))
    let b ← is_descendant par u mn
    if b then pure (mt.set l 1) else pure mt

/-- One site of the traceback: set `match[l]` from the descendant test at
the mutation node, look up the traceback value at the nearest recorded
ancestor, and when it is not approximately one close the current output
edge at `l` and open a new one at the argmax of the snapshot. -/
def tbSiteStep (ctx : MatchContext) (traceback : List (List (ℕ × ℚ))) (st : TBState)
    (l : ℕ) : Option TBState := do
  let u := st.openP
  let mt2 ← tbMatchUpd ctx st.par u st.mt l
  let L := traceback.getD l []
  if L = [] then none
  else do
    let v ← tbWalk st.par L (st.par.length + 1) u
    let x := lookupTB L v
    if approximately_one x then pure { st with mt := mt2 }
    else do
      let u2 ← get_max_likelihood_traceback_node L
      pure (TBState.mk st.par (TBEdge.mk l st.openR st.openP :: st.acc) l (u2 : ℤ) mt2)

/-- The update `if k >= 0: left = max(left, edges[k].left)` of the
traceback loop. -/
def tbLeftK (ctx : MatchContext) (kk : ℕ) : Option ℕ :=
  if 0 < kk then do
    let e ← ctx.edges[kk - 1]?
    pure (max 0 e.left)
  else pure 0

/-- The update `if j >= 0: left = max(left, edges[I[j]].right)` of the
traceback loop. -/
def tbLeftJ (ctx : MatchContext) (jj : ℕ) (left1 : ℕ) : Option ℕ :=
  if 0 < jj then do
    let oi ← ctx.removal_order[jj - 1]?
    let e ← ctx.edges[oi]?
    pure (max left1 e.right)
  else pure left1

/-- The tree-by-tree traceback loop `while pos > start`. -/
def tbLoop (ctx : MatchContext) (start endv : ℕ) (traceback : List (List (ℕ × ℚ))) :
    ℕ → ℕ → ℕ → ℕ → TBState → Option TBState
  | 0, _, _, _, _ => none
  | f + 1, kk, jj, pos, st =>
    if pos ≤ start then some st
    else do
      let rk ← tbKLoop ctx pos kk st.par
      let rj ← tbJLoop ctx pos jj rk.2
      let right := pos
      let left1 ← tbLeftK ctx rk.1
      let left2 ← tbLeftJ ctx rj.1 left1
      if right ≤ left2 then none
      else do
        let st1 : TBState := { st with par := rj.2 }
        let sl := (List.range' (max left2 start) (min right endv - max left2 start)).reverse
        let st2 ← sl.foldlM (tbSiteStep ctx traceback) st1
        tbLoop ctx start endv traceback f rk.1 rj.1 left2 st2

/-- Mirrors `AncestorMatcher.run_traceback`: build the matched haplotype and
the mosaic `(left, right, parent)` edges, validating the final per-edge
assertions `start <= left < right <= end`. -/
def run_traceback (ctx : MatchContext) (st : MatcherState) (start endv : ℕ) :
    Option (List ℕ × List ℕ × List ℤ × List ℕ) := do
  let u ← get_max_likelihood_node st
  let m := ctx.num_sites
  let mt0 := (List.range m).map
    (fun i => if i < start then UNKNOWN_ALLELE else if endv ≤ i then UNKNOWN_ALLELE else 0)
  let par0 : List ℤ := List.replicate st.parent.length (-1)
  let tb0 : TBState := TBState.mk par0 [] endv (u : ℤ) mt0
  let tbF ← tbLoop ctx start endv st.traceback (m + 1) ctx.edges.length ctx.edges.length m tb0
  let outEdges := (TBEdge.mk start tbF.openR tbF.openP :: tbF.acc).reverse
  if outEdges.all
      (fun e => decide (start ≤ e.left) && decide (e.right ≤ endv) && decide (e.left < e.right))
  then pure (outEdges.map TBEdge.left, outEdges.map TBEdge.right,
        outEdges.map TBEdge.parent, tbF.mt)
  else none

/-- Mirrors `AncestorMatcher.find_path`: allocate the per-call state, build
the initial tree, run the forward sweep, then the traceback. -/
def find_path (ctx : MatchContext) (h : List ℕ) (start endv : ℕ) :
    Option (List ℕ × List ℕ × List ℤ × List ℕ) := do
  let n := ctx.num_nodes
  let m := ctx.num_sites
  let st0 : MatcherState := MatcherState.mk
    (List.replicate n (-1)) (List.replicate n (-1)) (List.replicate n (-1))
    (List.replicate n (-1)) (List.replicate n (-1))
    (List.replicate m []) (List.replicate n (-2)) []
  let ini ← initLoop ctx start (2 * ctx.edges.length + m + 3) 0 0 0 m 0 st0
  if ini.2.2.2.1 ≤ ini.2.2.1 then none
  else do
    let st1 := ini.2.2.2.2
    let lik1 ← setChecked st1.likelihood 0 1
    let lik2 := (List.range n).foldl
      (fun lk u => if st1.parent.getD u (-1) ≠ -1 then lk.set u (-1) else lk) lik1
    let st2 := { st1 with likelihood := lik2, likelihood_nodes := [0] }
    let lcache0 : List ℚ := List.replicate n (-1)
    let st3 ← mainLoop ctx h start endv (2 * ctx.edges.length + m + 3)
      ini.1 ini.2.1 ini.2.2.1 ini.2.2.2.1 ini.2.1 st2 lcache0
    run_traceback ctx st3 start endv

/-! Concrete evaluation of `find_path` for the trivial 2-sample, 2-site
scenario: one node (the root, id 0), no edges, no mutations, positions
`[1, 2]`, `error_rate = 0`, haplotype `h = [1, 0]` (sample 0), full window
`[0, 2)`. -/

set_option maxHeartbeats 2000000 in
theorem updateSiteEvalA : update_site (MatchContext.mk 1 2 [1, 2] [0, 0] 0 [] [] [])
    (MatcherState.mk [-1] [-1] [-1] [-1] [-1] [[], []] [1] [0]) 0 1 =
    some (MatcherState.mk [-1] [-1] [-1] [-1] [-1] [[(0, 1)], []] [1] [0]) := by
  norm_num [update_site, store_traceback, snapshot, setChecked, List.lookup]

set_option maxHeartbeats 2000000 in
theorem updateSiteEvalB : update_site (MatchContext.mk 1 2 [1, 2] [0, 0] 0 [] [] [])
    (MatcherState.mk [-1] [-1] [-1] [-1] [-1] [[(0, 1)], []] [1] [0]) 1 0 =
    some (MatcherState.mk [-1] [-1] [-1] [-1] [-1] [[(0, 1)], [(0, 1)]] [1] [0]) := by
  norm_num [update_site, store_traceback, snapshot, setChecked, dictEqb, List.lookup]

theorem checkLikEval :
    check_likelihoods (MatcherState.mk [-1] [-1] [-1] [-1] [-1] [[], []] [1] [0]) := by
  norm_num [check_likelihoods]

set_option maxHeartbeats 4000000 in
theorem mainLoopEval : mainLoop (MatchContext.mk 1 2 [1, 2] [0, 0] 0 [] [] [])
    [1, 0] 0 2 5 0 0 0 2 0
    (MatcherState.mk [-1] [-1] [-1] [-1] [-1] [[], []] [1] [0]) [-1] =
    some (MatcherState.mk [-1] [-1] [-1] [-1] [-1] [[(0, 1)], [(0, 1)]] [1] [0]) := by
  norm_num [mainLoop, List.range', List.foldlM, updateSiteEvalA, updateSiteEvalB,
    checkLikEval, removalLoop, insertionLoop]

set_option maxHeartbeats 8000000 in
theorem tracebackEval : run_traceback (MatchContext.mk 1 2 [1, 2] [0, 0] 0 [] [] [])
    (MatcherState.mk [-1] [-1] [-1] [-1] [-1] [[(0, 1)], [(0, 1)]] [1] [0]) 0 2 =
    some ([0], [2], [0], [0, 0]) := by
  norm_num [run_traceback, get_max_likelihood_node, tbLoop, tbKLoop, tbJLoop, tbLeftK,
    tbLeftJ, tbSiteStep, tbMatchUpd, tbWalk, findInTB, lookupTB, approximately_one,
    approximately_equal,
    get_max_likelihood_traceback_node, npGetZ, npGetQ, List.range', List.foldlM,
    List.lookup, UNKNOWN_ALLELE, List.range_succ]

set_option maxHeartbeats 4000000 in
theorem find_path_empty_ts_eval : find_path (MatchContext.ofBuilder
      ((TreeSequenceBuilder.init 2 [1, 2] [0, 0]).restore_nodes [1]) [0, 0] 0) [1, 0] 0 2 =
    some ([0], [2], [0], [0, 0]) := by
  norm_num [find_path, MatchContext.ofBuilder, TreeSequenceBuilder.init,
    TreeSequenceBuilder.restore_nodes, TreeSequenceBuilder.add_node,
    TreeSequenceBuilder.num_sites, initLoop, setChecked, List.range',
    List.replicate_succ, mainLoopEval, tracebackEval]

/-- Claim C3 counterexample: on the literal input (2 samples, positions
`[1, 2]`, genotypes `[[1,0],[0,1]]`, `error_rate = 0`), matching sample 0
(haplotype `[1, 0]`) over the full window against the empty tree sequence
returns the single edge `(0, 2, 0)` but fills `match` with `0` at both
sites, not with `UNKNOWN_ALLELE` as the claim states: `run_traceback` does
`match[:] = 0` and only the slices outside `[start, end) = [0, 2)` (here
empty) become `UNKNOWN_ALLELE`. -/
theorem C3_counterexample :
    find_path (MatchContext.ofBuilder
        ((TreeSequenceBuilder.init 2 [1, 2] [0, 0]).restore_nodes [1]) [0, 0] 0) [1, 0] 0 2 =
      some ([0], [2], [0], [0, 0]) ∧
    ([0, 0] : List ℕ) ≠ [UNKNOWN_ALLELE, UNKNOWN_ALLELE] := by
  exact ⟨find_path_empty_ts_eval, by decide⟩

/-- Claim C3 (amended: `match` is filled with 0, not `UNKNOWN_ALLELE`, at
both sites, since the full window `[0, 2)` leaves no position outside it):
for the literal input `num_samples = 2`, positions `[1, 2]`, genotypes
`[[1,0],[0,1]]`, `error_rate = 0`, the ancestor-descriptor list is empty,
and matching sample 0 over the full window against the empty tree sequence
(root node 0 only, no edges, no mutations) returns exactly one edge
`(left = 0, right = 2, parent = 0)` and `match = [0, 0]`. -/
theorem C3_trivial_two_sample_scenario :
    ((buildFrom (AncestorBuilder.init 2 2) [(0, 1, [1, 0]), (1, 1, [0, 1])]).map
        (fun b => b.ancestor_descriptors) = some []) ∧
    find_path (MatchContext.ofBuilder
        ((TreeSequenceBuilder.init 2 [1, 2] [0, 0]).restore_nodes [1]) [0, 0] 0) [1, 0] 0 2 =
      some ([0], [2], [0], [0, 0]) := by
  exact ⟨by decide, find_path_empty_ts_eval⟩

/-- Claim C5: when `site` has no entry in the mutations map and
`error_rate == 0`, a returning `update_site` call has stored
`traceback[site]` as a copy of the current `{node: likelihood}` map and
left the likelihood array and `likelihood_nodes` unchanged; and when
`site > 0` and `site - 1` also has no mutation, `traceback[site]` equals
`traceback[site - 1]` as a dict (the "NASTY" preservation path, which the
source asserts before returning). -/
theorem C5_no_mutation_zero_error_frame (ctx : MatchContext) (st st' : MatcherState)
    (site state : ℕ)
    (hmut : ctx.mutations.lookup site = none)
    (herr : ctx.err = 0)
    (h : update_site ctx st site state = some st') :
    st'.likelihood = st.likelihood ∧
    st'.likelihood_nodes = st.likelihood_nodes ∧
    st'.traceback.getD site [] = snapshot st ∧
    (0 < site → (ctx.mutations.lookup (site - 1)).isNone →
      dictEqb (st'.traceback.getD site []) (st'.traceback.getD (site - 1) []) = true) := by
  unfold update_site at h
  rw [hmut, herr] at h
  simp only [if_pos rfl] at h
  by_cases h0 : state = 0 ∧ st.likelihood_nodes = []
  · rw [if_pos h0] at h
    cases h
  · rw [if_neg h0] at h
    unfold store_traceback at h
    cases hset : setChecked st.traceback site (snapshot st) with
    | none => rw [hset] at h; cases h
    | some tb =>
      rw [hset] at h
      simp only [Option.map_some', Option.bind_eq_bind, Option.some_bind,
        eq_self_iff_true, if_true] at h
      have hsitelen : site < st.traceback.length := by
        unfold setChecked at hset
        by_cases hl : site < st.traceback.length
        · exact hl
        · rw [if_neg hl] at hset; cases hset
      have htb : tb = st.traceback.set site (snapshot st) := by
        unfold setChecked at hset
        rw [if_pos hsitelen] at hset
        exact ((Option.some.injEq _ _).mp hset).symm
      by_cases hc : 0 < site ∧ (ctx.mutations.lookup (site - 1)).isNone = true
      · rw [if_pos hc] at h
        by_cases hdq : dictEqb (({ st with traceback := tb } : MatcherState).traceback.getD site [])
            (({ st with traceback := tb } : MatcherState).traceback.getD (site - 1) []) = true
        · rw [if_pos hdq] at h
          cases h
          refine ⟨rfl, rfl, ?_, fun _ _ => hdq⟩
          subst htb
          rw [List.getD_eq_getElem _ _ (by simpa using hsitelen)]
          rw [List.getElem_set]
          simp
        · rw [if_neg hdq] at h
          cases h
      · rw [if_neg hc] at h
        cases h
        refine ⟨rfl, rfl, ?_, ?_⟩
        · subst htb
          rw [List.getD_eq_getElem _ _ (by simpa using hsitelen)]
          rw [List.getElem_set]
          simp
        · intro hpos hnone
          exact absurd ⟨hpos, hnone⟩ hc

/-- Witness for claim C5's theorem at the concrete site-1 call of the
trivial scenario. -/
theorem C5_no_mutation_zero_error_frame_witness :
    (MatcherState.mk [-1] [-1] [-1] [-1] [-1] [[(0, 1)], [(0, 1)]] [1] [0]).likelihood =
      (MatcherState.mk [-1] [-1] [-1] [-1] [-1] [[(0, 1)], []] [1] [0]).likelihood ∧
    (MatcherState.mk [-1] [-1] [-1] [-1] [-1] [[(0, 1)], [(0, 1)]] [1] [0]).likelihood_nodes =
      (MatcherState.mk [-1] [-1] [-1] [-1] [-1] [[(0, 1)], []] [1] [0]).likelihood_nodes ∧
    (MatcherState.mk [-1] [-1] [-1] [-1] [-1] [[(0, 1)], [(0, 1)]] [1] [0]).traceback.getD 1 [] =
      snapshot (MatcherState.mk [-1] [-1] [-1] [-1] [-1] [[(0, 1)], []] [1] [0]) ∧
    (0 < 1 →
      ((MatchContext.mk 1 2 [1, 2] [0, 0] 0 [] [] []).mutations.lookup (1 - 1)).isNone →
      dictEqb
        ((MatcherState.mk [-1] [-1] [-1] [-1] [-1] [[(0, 1)], [(0, 1)]] [1] [0]).traceback.getD 1 [])
        ((MatcherState.mk [-1] [-1] [-1] [-1] [-1] [[(0, 1)], [(0, 1)]] [1] [0]).traceback.getD (1 - 1) []) = true) :=
  C5_no_mutation_zero_error_frame
    (MatchContext.mk 1 2 [1, 2] [0, 0] 0 [] [] [])
    (MatcherState.mk [-1] [-1] [-1] [-1] [-1] [[(0, 1)], []] [1] [0])
    (MatcherState.mk [-1] [-1] [-1] [-1] [-1] [[(0, 1)], [(0, 1)]] [1] [0])
    1 0 rfl rfl updateSiteEvalB

/-! Determinism of the core (claim C9). -/

/-- Argument batch of one `TreeSequenceBuilder.update` call. -/
structure UpdateArgs where
  num_nodes : ℕ
  time : ℚ
  left : List ℕ
  right : List ℕ
  parent : List ℕ
  child : List ℕ
  site : List ℕ
  node : List ℕ
  derived_state : List ℕ

/-- Replay a sequence of `update` calls against a builder. -/
def applyUpdates (t : TreeSequenceBuilder) (ops : List UpdateArgs) : TreeSequenceBuilder :=
  ops.foldl (fun acc op => acc.update op.num_nodes op.time op.left op.right op.parent
    op.child op.site op.node op.derived_state) t

/-- The three dumped tables of a builder. -/
def dumpTables (t : TreeSequenceBuilder) :
    (List ℕ × List ℚ) × (List ℕ × List ℕ × List ℕ × List ℕ) ×
      Option (List ℤ × List ℤ × List ℤ × List ℤ) :=
  (t.dump_nodes, t.dump_edges, t.dump_mutations)

/-- Claim C9: the core is deterministic.  In this embedding every operation
is a pure function, so repeated runs on identical inputs agree
definitionally; `make_ancestor` moreover ignores the caller's buffer
contents (it only uses its length, since `a[:] = UNKNOWN_ALLELE` overwrites
everything), the replayed `update` sequences give identical dumped
node/edge/mutation tables, and repeated `find_path` calls agree.  The only
Python-side iteration-order effects (`set` iteration in
`__build_ancestor_sites`, dict iteration in the matcher) enter through
order-insensitive counts or insertion-ordered dicts, which the embedding
models exactly. -/
theorem C9_core_deterministic :
    (∀ (b : AncestorBuilder) (fs : List ℕ) (a1 a2 : List ℕ), a1.length = a2.length →
      b.make_ancestor fs a1 = b.make_ancestor fs a2) ∧
    (∀ (t : TreeSequenceBuilder) (ops : List UpdateArgs),
      dumpTables (applyUpdates t ops) = dumpTables (applyUpdates t ops)) ∧
    (∀ (ctx : MatchContext) (h : List ℕ) (start endv : ℕ),
      find_path ctx h start endv = find_path ctx h start endv) := by
  refine ⟨?_, fun t ops => rfl, fun ctx h s e => rfl⟩
  intro b fs a1 a2 hlen
  unfold AncestorBuilder.make_ancestor
  rw [hlen]

/-- Witness for claim C9's theorem: `make_ancestor` on two different
buffers of equal length. -/
theorem C9_core_deterministic_witness :
    (AncestorBuilder.init 2 2).make_ancestor [0] [0, 0] =
      (AncestorBuilder.init 2 2).make_ancestor [0] [1, 1] :=
  C9_core_deterministic.1 (AncestorBuilder.init 2 2) [0] [0, 0] [1, 1] rfl

/-! Tiling of the output edges and well-formedness of `match` (claim C2). -/

/-- The returned `(left, right)` pairs, in output order (descending right),
tile `[s, e)`: the first pair's right is `e`, each pair's left is the next
pair's right, and the last pair's left is `s`. -/
def tilesFrom (s : ℕ) : ℕ → List (ℕ × ℕ) → Prop
  | e, [] => e = s
  | e, (l, r) :: rest => r = e ∧ tilesFrom s l rest

/-- Loop invariant of the traceback: the closed edges (most recent first)
chain from the open edge's right bound up to `e`. -/
def chainedAcc (e : ℕ) : List TBEdge → ℕ → Prop
  | [], r => r = e
  | ed :: rest, r => ed.left = r ∧ chainedAcc e rest ed.right

/-- Loop invariant of the traceback for `match`: defined exactly on the
window `[s, e)` (sentinel `UNKNOWN_ALLELE` outside it). -/
def matchInv (m s e : ℕ) (mt : List ℕ) : Prop :=
  mt.length = m ∧ ∀ i, i < m → (mt.getD i 0 = UNKNOWN_ALLELE ↔ (i < s ∨ e ≤ i))

theorem tilesFrom_append_singleton (s : ℕ) (l r : ℕ) :
    ∀ (ps : List (ℕ × ℕ)) (e : ℕ),
      tilesFrom s e (ps ++ [(l, r)]) ↔ (tilesFrom r e ps ∧ l = s) := by
  intro ps
  induction ps with
  | nil =>
    intro e
    show (r = e ∧ l = s) ↔ (e = r ∧ l = s)
    constructor
    · rintro ⟨h1, h2⟩
      exact ⟨h1.symm, h2⟩
    · rintro ⟨h1, h2⟩
      exact ⟨h1.symm, h2⟩
  | cons p tl ih =>
    intro e
    obtain ⟨l0, r0⟩ := p
    show (r0 = e ∧ tilesFrom s l0 (tl ++ [(l, r)])) ↔ ((r0 = e ∧ tilesFrom r l0 tl) ∧ l = s)
    rw [ih l0]
    tauto

theorem chainedAcc_tilesFrom (s e : ℕ) :
    ∀ (acc : List TBEdge) (r : ℕ), chainedAcc e acc r →
      tilesFrom r e (acc.reverse.map (fun ed => (ed.left, ed.right))) := by
  intro acc
  induction acc with
  | nil =>
    intro r hr
    exact hr.symm
  | cons ed rest ih =>
    intro r hr
    obtain ⟨h1, h2⟩ := hr
    rw [List.reverse_cons, List.map_append]
    simp only [List.map_cons, List.map_nil]
    rw [tilesFrom_append_singleton]
    exact ⟨ih ed.right h2, h1⟩

theorem matchInv_set_one {m s e : ℕ} {mt : List ℕ} (l : ℕ) (hm : matchInv m s e mt)
    (hl1 : s ≤ l) (hl2 : l < e) : matchInv m s e (mt.set l 1) := by
  refine ⟨by rw [List.length_set]; exact hm.1, ?_⟩
  intro i hi
  have hilen : i < mt.length := by rw [hm.1]; exact hi
  rw [List.getD_eq_getElem _ _ (by simpa using hilen), List.getElem_set]
  by_cases hli : l = i
  · rw [if_pos hli]
    subst hli
    unfold UNKNOWN_ALLELE
    constructor
    · intro hh
      exact absurd hh (by omega)
    · intro hh
      rcases hh with hh | hh <;> omega
  · rw [if_neg hli]
    rw [← List.getD_eq_getElem mt 0 hilen]
    exact hm.2 i hi

theorem tbSiteStep_inv (ctx : MatchContext) (tbl : List (List (ℕ × ℚ))) (m s e l : ℕ)
    (st st' : TBState) (hl1 : s ≤ l) (hl2 : l < e)
    (h : tbSiteStep ctx tbl st l = some st')
    (hc : chainedAcc e st.acc st.openR) (hm : matchInv m s e st.mt) :
    chainedAcc e st'.acc st'.openR ∧ matchInv m s e st'.mt := by
  unfold tbSiteStep at h
  simp only [Option.bind_eq_bind, Option.bind_eq_some] at h
  obtain ⟨mt2, hmt2, h⟩ := h
  have hminv2 : matchInv m s e mt2 := by
    unfold tbMatchUpd at hmt2
    rcases hlk : ctx.mutations.lookup l with _ | muts
    · rw [hlk] at hmt2
      cases hmt2
      exact hm
    · rw [hlk] at hmt2
      simp only [Option.bind_eq_bind, Option.bind_eq_some] at hmt2
      obtain ⟨mn, _, b, _, hmt2⟩ := hmt2
      by_cases hbv : b = true
      · rw [if_pos hbv] at hmt2
        cases hmt2
        exact matchInv_set_one l hm hl1 hl2
      · rw [if_neg hbv] at hmt2
        cases hmt2
        exact hm
  by_cases hL : tbl.getD l [] = []
  · rw [if_pos hL] at h
    cases h
  · rw [if_neg hL] at h
    simp only [Option.bind_eq_bind, Option.bind_eq_some] at h
    obtain ⟨v, _, h⟩ := h
    by_cases hax : approximately_one (lookupTB (tbl.getD l []) v)
    · rw [if_pos hax] at h
      cases h
      exact ⟨hc, hminv2⟩
    · rw [if_neg hax] at h
      simp only [Option.bind_eq_bind, Option.bind_eq_some] at h
      obtain ⟨u2, _, h⟩ := h
      cases h
      exact ⟨⟨rfl, hc⟩, hminv2⟩

theorem tbSites_inv (ctx : MatchContext) (tbl : List (List (ℕ × ℚ))) (m s e : ℕ) :
    ∀ (ls : List ℕ) (st st' : TBState), (∀ l ∈ ls, s ≤ l ∧ l < e) →
      ls.foldlM (tbSiteStep ctx tbl) st = some st' →
      chainedAcc e st.acc st.openR → matchInv m s e st.mt →
      chainedAcc e st'.acc st'.openR ∧ matchInv m s e st'.mt := by
  intro ls
  induction ls with
  | nil =>
    intro st st' _ h hc hm
    cases h
    exact ⟨hc, hm⟩
  | cons l tl ih =>
    intro st st' hmem h hc hm
    rw [List.foldlM_cons] at h
    simp only [Option.bind_eq_bind, Option.bind_eq_some] at h
    obtain ⟨st1, h1, h⟩ := h
    obtain ⟨hc1, hm1⟩ := tbSiteStep_inv ctx tbl m s e l st st1
      (hmem l (List.mem_cons_self _ _)).1 (hmem l (List.mem_cons_self _ _)).2 h1 hc hm
    exact ih st1 st' (fun x hx => hmem x (List.mem_cons_of_mem _ hx)) h hc1 hm1

theorem tbLoop_inv (ctx : MatchContext) (s e : ℕ) (tbl : List (List (ℕ × ℚ))) (m : ℕ)
    (he : e ≤ m) :
    ∀ (fuel kk jj pos : ℕ) (st st' : TBState),
      tbLoop ctx s e tbl fuel kk jj pos st = some st' →
      chainedAcc e st.acc st.openR → matchInv m s e st.mt →
      chainedAcc e st'.acc st'.openR ∧ matchInv m s e st'.mt := by
  intro fuel
  induction fuel with
  | zero =>
    intro kk jj pos st st' h
    cases h
  | succ f ih =>
    intro kk jj pos st st' h hc hm
    unfold tbLoop at h
    by_cases hpos : pos ≤ s
    · rw [if_pos hpos] at h
      cases h
      exact ⟨hc, hm⟩
    · rw [if_neg hpos] at h
      simp only [Option.bind_eq_bind, Option.bind_eq_some] at h
      obtain ⟨rk, _, rj, _, left1, _, left2, _, h⟩ := h
      by_cases hlr : pos ≤ left2
      · rw [if_pos hlr] at h
        cases h
      · rw [if_neg hlr] at h
        simp only [Option.bind_eq_bind, Option.bind_eq_some] at h
        obtain ⟨st2, h2, h⟩ := h
        have hmem : ∀ l ∈ (List.range' (max left2 s) (min pos e - max left2 s)).reverse,
            s ≤ l ∧ l < e := by
          intro l hl
          rw [List.mem_reverse, List.mem_range'_1] at hl
          omega
        obtain ⟨hc2, hm2⟩ := tbSites_inv ctx tbl m s e _ _ st2 hmem h2
          (show chainedAcc e st.acc st.openR from hc)
          (show matchInv m s e st.mt from hm)
        exact ih rk.1 rj.1 left2 st2 st' h hc2 hm2

theorem run_traceback_tiles (ctx : MatchContext) (st : MatcherState) (start endv : ℕ)
    (L R : List ℕ) (P : List ℤ) (mt : List ℕ)
    (he : endv ≤ ctx.num_sites)
    (h : run_traceback ctx st start endv = some (L, R, P, mt)) :
    L.length = R.length ∧ L.length = P.length ∧
    tilesFrom start endv (L.zip R) ∧
    (∀ p ∈ L.zip R, start ≤ p.1 ∧ p.2 ≤ endv ∧ p.1 < p.2) ∧
    mt.length = ctx.num_sites ∧
    (∀ i, i < ctx.num_sites → (mt.getD i 0 = UNKNOWN_ALLELE ↔ (i < start ∨ endv ≤ i))) := by
  unfold run_traceback at h
  simp only [Option.bind_eq_bind, Option.bind_eq_some] at h
  obtain ⟨u, _, tbF, htb, h⟩ := h
  have hinit_mt : matchInv ctx.num_sites start endv ((List.range ctx.num_sites).map
      (fun i => if i < start then UNKNOWN_ALLELE else if endv ≤ i then UNKNOWN_ALLELE else 0)) := by
    constructor
    · simp
    · intro i hi
      rw [List.getD_eq_getElem _ _ (by simpa using hi), List.getElem_map, List.getElem_range]
      by_cases h1 : i < start
      · simp only [if_pos h1]
        constructor
        · intro _
          exact Or.inl h1
        · intro _
          trivial
      · rw [if_neg h1]
        by_cases h2 : endv ≤ i
        · simp only [if_pos h2]
          constructor
          · intro _
            exact Or.inr h2
          · intro _
            trivial
        · rw [if_neg h2]
          unfold UNKNOWN_ALLELE
          constructor
          · intro hh
            exact absurd hh (by omega)
          · intro hh
            rcases hh with hh | hh <;> omega
  obtain ⟨hcF, hmF⟩ := tbLoop_inv ctx start endv st.traceback ctx.num_sites he
    (ctx.num_sites + 1) ctx.edges.length ctx.edges.length ctx.num_sites _ tbF htb
    (show chainedAcc endv [] endv from rfl) hinit_mt
  by_cases hall : ((TBEdge.mk start tbF.openR tbF.openP :: tbF.acc).reverse.all
      (fun e => decide (start ≤ e.left) && decide (e.right ≤ endv) &&
        decide (e.left < e.right))) = true
  · rw [if_pos hall] at h
    cases h
    rw [List.all_eq_true] at hall
    have hedges : ∀ e ∈ (TBEdge.mk start tbF.openR tbF.openP :: tbF.acc).reverse,
        start ≤ e.left ∧ e.right ≤ endv ∧ e.left < e.right := by
      intro e hee
      have := hall e hee
      simp only [Bool.and_eq_true, decide_eq_true_eq] at this
      exact ⟨this.1.1, this.1.2, this.2⟩
    have hzip : ((TBEdge.mk start tbF.openR tbF.openP :: tbF.acc).reverse.map TBEdge.left).zip
        ((TBEdge.mk start tbF.openR tbF.openP :: tbF.acc).reverse.map TBEdge.right) =
        (TBEdge.mk start tbF.openR tbF.openP :: tbF.acc).reverse.map
          (fun e => (e.left, e.right)) := by
      rw [List.zip_map']
    refine ⟨by simp, by simp, ?_, ?_, hmF.1, hmF.2⟩
    · rw [hzip, List.reverse_cons, List.map_append]
      simp only [List.map_cons, List.map_nil]
      rw [tilesFrom_append_singleton]
      exact ⟨chainedAcc_tilesFrom start endv tbF.acc tbF.openR hcF, rfl⟩
    · intro p hp
      rw [hzip, List.mem_map] at hp
      obtain ⟨e, he', rfl⟩ := hp
      exact hedges e he'
  · rw [if_neg hall] at h
    cases h

/-- Claim C2: whenever `find_path(h, start, end)` with
`0 ≤ start < end ≤ num_sites` returns, the returned `(left, right, parent)`
edges tile `[start, end)` exactly once — in output order the first edge's
right bound is `end`, each edge's left bound is the next edge's right
bound, the last edge's left bound is `start`, and every edge satisfies
`start ≤ left < right ≤ end` (so there are no gaps and no overlaps) — and
`match[i] = UNKNOWN_ALLELE` iff `i ∉ [start, end)`.  An `assert` failure or
a non-terminating walk is modelled as `none` and never returns. -/
theorem C2_find_path_tiles (ctx : MatchContext) (h : List ℕ) (start endv : ℕ)
    (L R : List ℕ) (P : List ℤ) (mt : List ℕ)
    (hs : start < endv) (he : endv ≤ ctx.num_sites)
    (hfp : find_path ctx h start endv = some (L, R, P, mt)) :
    L.length = R.length ∧ L.length = P.length ∧
    tilesFrom start endv (L.zip R) ∧
    (∀ p ∈ L.zip R, start ≤ p.1 ∧ p.2 ≤ endv ∧ p.1 < p.2) ∧
    mt.length = ctx.num_sites ∧
    (∀ i, i < ctx.num_sites → (mt.getD i 0 = UNKNOWN_ALLELE ↔ (i < start ∨ endv ≤ i))) := by
  unfold find_path at hfp
  simp only [Option.bind_eq_bind, Option.bind_eq_some] at hfp
  obtain ⟨ini, _, hfp⟩ := hfp
  by_cases hcond : ini.2.2.2.1 ≤ ini.2.2.1
  · rw [if_pos hcond] at hfp
    cases hfp
  · rw [if_neg hcond] at hfp
    simp only [Option.bind_eq_bind, Option.bind_eq_some] at hfp
    obtain ⟨lik1, _, st3, _, hfp⟩ := hfp
    exact run_traceback_tiles ctx st3 start endv L R P mt he hfp

/-- Witness for claim C2's theorem at the trivial 2-site scenario. -/
theorem C2_find_path_tiles_witness :
    ([0] : List ℕ).length = ([2] : List ℕ).length ∧
    ([0] : List ℕ).length = ([0] : List ℤ).length ∧
    tilesFrom 0 2 (([0] : List ℕ).zip [2]) ∧
    (∀ p ∈ (([0] : List ℕ).zip [2]), 0 ≤ p.1 ∧ p.2 ≤ 2 ∧ p.1 < p.2) ∧
    ([0, 0] : List ℕ).length = (MatchContext.ofBuilder
      ((TreeSequenceBuilder.init 2 [1, 2] [0, 0]).restore_nodes [1]) [0, 0] 0).num_sites ∧
    (∀ i, i < (MatchContext.ofBuilder
        ((TreeSequenceBuilder.init 2 [1, 2] [0, 0]).restore_nodes [1]) [0, 0] 0).num_sites →
      (([0, 0] : List ℕ).getD i 0 = UNKNOWN_ALLELE ↔ (i < 0 ∨ 2 ≤ i))) :=
  C2_find_path_tiles
    (MatchContext.ofBuilder ((TreeSequenceBuilder.init 2 [1, 2] [0, 0]).restore_nodes [1])
      [0, 0] 0)
    [1, 0] 0 2 [0] [2] [0] [0, 0] (by decide) (by decide) find_path_empty_ts_eval

/-! Normalisation of the likelihood update (claim C8). -/

theorem getD_set_self (l : List ℚ) (u : ℕ) (v : ℚ) (h : u < l.length) :
    (l.set u v).getD u 0 = v := by
  rw [List.getD_eq_getElem _ _ (by simpa using h), List.getElem_set, if_pos rfl]

theorem getD_set_ne (l : List ℚ) (u w : ℕ) (v : ℚ) (h : u ≠ w) :
    (l.set u v).getD w 0 = l.getD w 0 := by
  by_cases hw : w < l.length
  · rw [List.getD_eq_getElem _ _ (by simpa using hw), List.getElem_set, if_neg h,
      List.getD_eq_getElem _ _ hw]
  · rw [List.getD_eq_default _ _ (by simpa using not_lt.mp hw),
      List.getD_eq_default _ _ (not_lt.mp hw)]

theorem likLoopStep_char (par : List ℤ) (mn : ℤ) (noRec recP dist err : ℚ) (state : ℕ)
    (acc acc' : LikAcc) (u : ℕ)
    (h : likLoopStep par mn noRec recP dist err state acc u = some acc') :
    ∃ v, acc'.likelihood = acc.likelihood.set u v ∧
      acc'.maxL = (if acc.maxL < v then v else acc.maxL) ∧
      (0 < err → err < 1 → 0 < dist → 0 < noRec →
        0 < acc.likelihood.getD u 0 → 0 < v) := by
  unfold likLoopStep at h
  simp only [Option.bind_eq_bind, Option.bind_eq_some] at h
  obtain ⟨w, _, dref, _, h⟩ := h
  set d : Bool :=
    if w ≠ -1 ∧ npGetZ acc.cache w ≠ -1 then decide (npGetZ acc.cache w = 1)
    else decide (w = mn) with hd
  by_cases hdd : d ≠ dref
  · rw [if_pos hdd] at h
    cases h
  · rw [if_neg hdd] at h
    simp only [Option.bind_eq_bind, Option.bind_eq_some] at h
    obtain ⟨cache2, _, h⟩ := h
    by_cases hx : acc.likelihood.getD u 0 * noRec * dist < 0
    · rw [if_pos hx] at h
      cases h
    · rw [if_neg hx] at h
      cases h
      refine ⟨_, rfl, rfl, ?_⟩
      intro he0 he1 hdist hnoRec hL
      have hxpos : 0 < acc.likelihood.getD u 0 * noRec * dist := by positivity
      have hz : 0 < (if recP * dist < acc.likelihood.getD u 0 * noRec * dist
          then acc.likelihood.getD u 0 * noRec * dist else recP * dist) := by
        by_cases hy : recP * dist < acc.likelihood.getD u 0 * noRec * dist
        · rw [if_pos hy]
          exact hxpos
        · rw [if_neg hy]
          exact lt_of_lt_of_le hxpos (not_lt.mp hy)
      have hem : 0 < (if state = 1
          then (1 - err) * (if d = true then (1 : ℚ) else 0) + err * (1 - (if d = true then (1 : ℚ) else 0))
          else err * (if d = true then (1 : ℚ) else 0) + (1 - err) * (1 - (if d = true then (1 : ℚ) else 0))) := by
        by_cases hst : state = 1 <;> by_cases hdb : d = true <;>
          simp only [hst, hdb, if_true, if_false, eq_self_iff_true] <;> norm_num <;> linarith
      exact mul_pos hz hem

theorem likLoop_fold (par : List ℤ) (mn : ℤ) (noRec recP dist err : ℚ) (state : ℕ)
    (he0 : 0 < err) (he1 : err < 1) (hdist : 0 < dist) (hnoRec : 0 < noRec) :
    ∀ (ls : List ℕ) (acc acc' : LikAcc), ls.Nodup →
      (∀ u ∈ ls, u < acc.likelihood.length) →
      ls.foldlM (likLoopStep par mn noRec recP dist err state) acc = some acc' →
      acc.maxL ≤ acc'.maxL ∧
      (∀ u, u ∉ ls → acc'.likelihood.getD u 0 = acc.likelihood.getD u 0) ∧
      (∀ u ∈ ls, acc'.likelihood.getD u 0 ≤ acc'.maxL) ∧
      (∀ u ∈ ls, 0 < acc.likelihood.getD u 0 → 0 < acc'.likelihood.getD u 0) ∧
      (acc'.maxL = acc.maxL ∨ ∃ u ∈ ls, acc'.maxL = acc'.likelihood.getD u 0) := by
  intro ls
  induction ls with
  | nil =>
    intro acc acc' _ _ h
    cases h
    exact ⟨le_refl _, fun u _ => rfl, fun u hu => absurd hu (List.not_mem_nil u),
      fun u hu => absurd hu (List.not_mem_nil u), Or.inl rfl⟩
  | cons a tl ih =>
    intro acc acc' hnodup hlen h
    rw [List.foldlM_cons] at h
    simp only [Option.bind_eq_bind, Option.bind_eq_some] at h
    obtain ⟨acc1, h1, h⟩ := h
    obtain ⟨v, hlik1, hmax1, hvpos⟩ := likLoopStep_char par mn noRec recP dist err state
      acc acc1 a h1
    have hanotl : a ∉ tl := (List.nodup_cons.mp hnodup).1
    have hlen1 : ∀ u ∈ tl, u < acc1.likelihood.length := by
      intro u hu
      rw [hlik1, List.length_set]
      exact hlen u (List.mem_cons_of_mem _ hu)
    obtain ⟨hmono, hframe, hle, hpos, hmaxeq⟩ := ih acc1 acc' (List.nodup_cons.mp hnodup).2
      hlen1 h
    have halen : a < acc.likelihood.length := hlen a (List.mem_cons_self _ _)
    have hval1 : acc1.likelihood.getD a 0 = v := by
      rw [hlik1]
      exact getD_set_self _ _ _ halen
    have hfinal_a : acc'.likelihood.getD a 0 = v := by
      rw [hframe a hanotl, hval1]
    refine ⟨?_, ?_, ?_, ?_, ?_⟩
    · calc acc.maxL ≤ acc1.maxL := by
            rw [hmax1]
            by_cases hc : acc.maxL < v
            · rw [if_pos hc]
              exact le_of_lt hc
            · rw [if_neg hc]
        _ ≤ acc'.maxL := hmono
    · intro u hu
      have hua : u ≠ a := fun hh => hu (hh ▸ List.mem_cons_self _ _)
      have hutl : u ∉ tl := fun hh => hu (List.mem_cons_of_mem _ hh)
      rw [hframe u hutl, hlik1, getD_set_ne _ _ _ _ (fun hh => hua hh.symm)]
    · intro u hu
      rcases List.mem_cons.mp hu with rfl | hutl
      · rw [hfinal_a]
        have hvm : v ≤ acc1.maxL := by
          rw [hmax1]
          by_cases hc : acc.maxL < v
          · rw [if_pos hc]
          · rw [if_neg hc]
            exact not_lt.mp hc
        exact hvm.trans hmono
      · exact hle u hutl
    · intro u hu hold
      rcases List.mem_cons.mp hu with rfl | hutl
      · rw [hfinal_a]
        exact hvpos he0 he1 hdist hnoRec hold
      · refine hpos u hutl ?_
        have hau : a ≠ u := by
          intro hh
          exact hanotl (hh ▸ hutl)
        rw [hlik1, getD_set_ne _ _ _ _ hau]
        exact hold
    · rcases hmaxeq with hmm | ⟨u, hu, hmm⟩
      · rw [hmm, hmax1]
        by_cases hc : acc.maxL < v
        · rw [if_pos hc]
          exact Or.inr ⟨a, List.mem_cons_self _ _, by rw [hfinal_a]⟩
        · rw [if_neg hc]
          exact Or.inl rfl
      · exact Or.inr ⟨u, List.mem_cons_of_mem _ hu, hmm⟩

theorem normStep_char (par : List ℤ) (maxL : ℚ) (acc : List ℚ × List ℤ) (u : ℕ)
    (res1 : List ℚ × List ℤ) (h : normStep par maxL acc u = some res1) :
    res1.1 = acc.1.set u (acc.1.getD u 0 / maxL) := by
  unfold normStep at h
  simp only [Option.bind_eq_bind, Option.bind_eq_some] at h
  obtain ⟨cache2, _, h⟩ := h
  cases h
  rfl

theorem normLoop_fold (par : List ℤ) (maxL : ℚ) :
    ∀ (ls : List ℕ) (start res : List ℚ × List ℤ), ls.Nodup →
      (∀ u ∈ ls, u < start.1.length) →
      ls.foldlM (normStep par maxL) start = some res →
      (∀ u ∈ ls, res.1.getD u 0 = start.1.getD u 0 / maxL) ∧
      (∀ u, u ∉ ls → res.1.getD u 0 = start.1.getD u 0) := by
  intro ls
  induction ls with
  | nil =>
    intro start res _ _ h
    cases h
    exact ⟨fun u hu => absurd hu (List.not_mem_nil u), fun u _ => rfl⟩
  | cons a tl ih =>
    intro start res hnodup hlen h
    rw [List.foldlM_cons] at h
    simp only [Option.bind_eq_bind, Option.bind_eq_some] at h
    obtain ⟨p1, h1, h⟩ := h
    have hp1 : p1.1 = start.1.set a (start.1.getD a 0 / maxL) := normStep_char _ _ _ _ _ h1
    have hanotl : a ∉ tl := (List.nodup_cons.mp hnodup).1
    have hlen1 : ∀ u ∈ tl, u < p1.1.length := by
      intro u hu
      rw [hp1, List.length_set]
      exact hlen u (List.mem_cons_of_mem _ hu)
    obtain ⟨hvals, hframe⟩ := ih p1 res (List.nodup_cons.mp hnodup).2 hlen1 h
    have halen : a < start.1.length := hlen a (List.mem_cons_self _ _)
    refine ⟨?_, ?_⟩
    · intro u hu
      rcases List.mem_cons.mp hu with rfl | hutl
      · rw [hframe u hanotl, hp1, getD_set_self _ _ _ halen]
      · have hau : a ≠ u := by
          intro hh
          exact hanotl (hh ▸ hutl)
        rw [hvals u hutl, hp1, getD_set_ne _ _ _ _ hau]
    · intro u hu
      have hua : u ≠ a := fun hh => hu (hh ▸ List.mem_cons_self _ _)
      have hutl : u ∉ tl := fun hh => hu (List.mem_cons_of_mem _ hh)
      rw [hframe u hutl, hp1, getD_set_ne _ _ _ _ (fun hh => hua hh.symm)]

theorem likLoop_fold_length (par : List ℤ) (mn : ℤ) (noRec recP dist err : ℚ) (state : ℕ) :
    ∀ (ls : List ℕ) (acc acc' : LikAcc),
      ls.foldlM (likLoopStep par mn noRec recP dist err state) acc = some acc' →
      acc'.likelihood.length = acc.likelihood.length := by
  intro ls
  induction ls with
  | nil =>
    intro acc acc' h
    cases h
    rfl
  | cons a tl ih =>
    intro acc acc' h
    rw [List.foldlM_cons] at h
    simp only [Option.bind_eq_bind, Option.bind_eq_some] at h
    obtain ⟨acc1, h1, h⟩ := h
    obtain ⟨v, hlik1, _, _⟩ := likLoopStep_char par mn noRec recP dist err state acc acc1 a h1
    rw [ih acc1 acc' h, hlik1, List.length_set]

/-- Claim C8 (amended: the claim as stated fails for `error_rate = 0`, see
the counterexample; it holds whenever `0 < error_rate < 1`, the inter-site
distance is positive, `0 ≤ r < 1`, and some likelihood node carries a
strictly positive value — which the code's normalisation invariant
provides): in every `update_site` likelihood-update loop that returns, the
recomputed maximum `max_L` is strictly positive (the `max_L > 0` assertion
does not fire), and after dividing every value in `likelihood_nodes` by it
the maximum over `likelihood_nodes` equals exactly 1.  `likLoopStep` /
`normStep` are the loop bodies of `updateSiteMain`, with
`no_recomb_proba = 1 - r + r/n` and `recomb_proba = r/n` exactly as
`update_site` computes them. -/
theorem C8_normalised_max_one (par : List ℤ) (mn : ℤ) (r : ℚ) (n : ℕ) (err dist : ℚ)
    (state : ℕ) (nodes : List ℕ) (lik : List ℚ) (cache0 : List ℤ) (acc : LikAcc)
    (res : List ℚ × List ℤ)
    (hn : 1 ≤ n) (hr0 : 0 ≤ r) (hr1 : r < 1)
    (he0 : 0 < err) (he1 : err < 1) (hdist : 0 < dist)
    (hnodup : nodes.Nodup)
    (hlen : ∀ u ∈ nodes, u < lik.length)
    (hpos : ∃ u ∈ nodes, 0 < lik.getD u 0)
    (hloop : nodes.foldlM
      (likLoopStep par mn (1 - r + r / (n : ℚ)) (r / (n : ℚ)) dist err state)
      (LikAcc.mk lik cache0 (-1)) = some acc)
    (hnorm : nodes.foldlM (normStep par acc.maxL) (acc.likelihood, acc.cache) = some res) :
    0 < acc.maxL ∧ (∃ u ∈ nodes, res.1.getD u 0 = 1) ∧
    (∀ u ∈ nodes, res.1.getD u 0 ≤ 1) := by
  have hnq : (0 : ℚ) < (n : ℚ) := by
    have := hn
    positivity
  have hnoRec : 0 < 1 - r + r / (n : ℚ) := by
    have h1 : 0 < 1 - r := by linarith
    have h2 : 0 ≤ r / (n : ℚ) := div_nonneg hr0 (le_of_lt hnq)
    linarith
  obtain ⟨hmono, hframe, hle, hposf, hmaxeq⟩ :=
    likLoop_fold par mn (1 - r + r / (n : ℚ)) (r / (n : ℚ)) dist err state he0 he1 hdist
      hnoRec nodes (LikAcc.mk lik cache0 (-1)) acc hnodup hlen hloop
  obtain ⟨u0, hu0, hl0⟩ := hpos
  have hfinalpos : 0 < acc.likelihood.getD u0 0 := hposf u0 hu0 hl0
  have hmaxpos : 0 < acc.maxL := lt_of_lt_of_le hfinalpos (hle u0 hu0)
  have hlenacc : ∀ u ∈ nodes, u < acc.likelihood.length := by
    intro u hu
    rw [likLoop_fold_length par mn (1 - r + r / (n : ℚ)) (r / (n : ℚ)) dist err state
      nodes _ acc hloop]
    exact hlen u hu
  obtain ⟨hvals, _⟩ := normLoop_fold par acc.maxL nodes (acc.likelihood, acc.cache) res
    hnodup hlenacc hnorm
  refine ⟨hmaxpos, ?_, ?_⟩
  · rcases hmaxeq with hmm | ⟨umax, humax, hmm⟩
    · exact absurd hmm (by intro hh; rw [hh] at hmaxpos; norm_num at hmaxpos)
    · refine ⟨umax, humax, ?_⟩
      rw [hvals umax humax, ← hmm, div_self (ne_of_gt hmaxpos)]
  · intro u hu
    rw [hvals u hu]
    rw [div_le_one hmaxpos]
    exact hle u hu

set_option maxHeartbeats 1000000 in
theorem likStepEvalA : likLoopStep [-1, 0] 1 (1 : ℚ) (0 : ℚ) 1 0 1
    (LikAcc.mk [1, 0] [-1, -1] (-1)) 0 = some (LikAcc.mk [0, 0] [0, -1] 0) := by
  norm_num [likLoopStep, walkPC, fillPC, is_descendant, isDescWalk, npGetZ, npGetQ, npSetZ,
    NULL_NODE]

set_option maxHeartbeats 1000000 in
theorem likStepEvalB : likLoopStep [-1, 0] 1 (1 : ℚ) (0 : ℚ) 1 0 1
    (LikAcc.mk [0, 0] [0, -1] 0) 1 = some (LikAcc.mk [0, 0] [0, -1] 0) := by
  norm_num [likLoopStep, walkPC, fillPC, is_descendant, isDescWalk, npGetZ, npGetQ, npSetZ,
    NULL_NODE]

set_option maxHeartbeats 2000000 in
/-- Claim C8 counterexample: with `error_rate = 0` the `max_L > 0`
assertion can fire on a state satisfying the code's own
`check_likelihoods` invariant.  Tree: node 1 is a child of the root 0 with
explicit likelihood 0 (as a freshly attached edge endpoint receives);
node 0 has likelihood 1; the site's mutation sits on node 1, the haplotype
state is 1 and the recombination probability is 0.  No likelihood node is
a descendant of the mutation node with positive weight, every emission is
0, so `max_L = 0` and `update_site` fails (`none`). -/
theorem C8_counterexample :
    check_likelihoods
      (MatcherState.mk [-1, 0] [1, -1] [1, -1] [-1, -1] [-1, -1] [[]] [1, 0] [0, 1]) ∧
    update_site (MatchContext.mk 2 1 [1] [0] 0 [] [] [(0, [(1, 1)])])
      (MatcherState.mk [-1, 0] [1, -1] [1, -1] [-1, -1] [-1, -1] [[]] [1, 0] [0, 1]) 0 1 =
      none := by
  constructor
  · norm_num [check_likelihoods]
    intro u hu
    interval_cases u <;> norm_num
  · norm_num [update_site, updateSiteMain, store_traceback, snapshot, setChecked,
      List.lookup, List.foldlM, List.replicate_succ, List.getElem?_cons_zero,
      List.getElem?_cons_succ, likStepEvalA, likStepEvalB]
    intro hfalse
    have hv : (([1, 0] : List ℚ)[1] : ℚ) = 0 := rfl
    rw [hv] at hfalse
    norm_num at hfalse

set_option maxHeartbeats 4000000 in
/-- Witness for claim C8's amended theorem at a one-node input with
`err = 1/2`. -/
theorem C8_normalised_max_one_witness :
    0 < (LikAcc.mk [1/2] [-1] (1/2)).maxL ∧
    (∃ u ∈ [0], (([1] : List ℚ), ([-1] : List ℤ)).1.getD u 0 = 1) ∧
    (∀ u ∈ [0], (([1] : List ℚ), ([-1] : List ℤ)).1.getD u 0 ≤ 1) := by
  refine C8_normalised_max_one [-1] 0 0 1 (1/2) 1 1 [0] [1] [-1]
    (LikAcc.mk [1/2] [-1] (1/2)) ([1], [-1])
    le_rfl le_rfl (by norm_num) (by norm_num) (by norm_num) (by norm_num)
    (by decide) ?_ ?_ ?_ ?_
  · intro u hu
    simp only [List.mem_singleton] at hu
    subst hu
    norm_num
  · exact ⟨0, by norm_num⟩
  · norm_num [List.foldlM, likLoopStep, walkPC, fillPC, is_descendant, isDescWalk,
      npGetZ, npGetQ, npSetZ, NULL_NODE]
  · norm_num [List.foldlM, normStep, clearPC, npGetQ, npGetZ, npSetQ]

/-! Compression preserves decoded likelihoods (claim C10). -/

/-- The decoded likelihood of a node: walk up from `v` to the nearest
ancestor whose likelihood is not the compressed sentinel `-1`. -/
def decodeL (lik : List ℚ) (par : List ℤ) : ℕ → ℤ → ℚ
  | 0, v => npGetQ lik v
  | f + 1, v => if npGetQ lik v = -1 then decodeL lik par f (npGetZ par v) else npGetQ lik v

/-- Parent pointers descend: each node's parent is `-1` or a strictly
smaller node id. -/
def ParOK (par : List ℤ) : Prop :=
  ∀ u : ℕ, u < par.length → npGetZ par (u : ℤ) = -1 ∨
    (0 ≤ npGetZ par (u : ℤ) ∧ npGetZ par (u : ℤ) < (u : ℤ))

/-- Roots are never compressed: a node with no parent does not hold the
`-1` sentinel. -/
def RootsOK (lik : List ℚ) (par : List ℤ) : Prop :=
  ∀ u : ℕ, u < par.length → npGetZ par (u : ℤ) = -1 → npGetQ lik (u : ℤ) ≠ -1

theorem decodeL_fuel (lik : List ℚ) (par : List ℤ) (hpar : ParOK par)
    (hroot : RootsOK lik par) :
    ∀ (v : ℕ), v < par.length → ∀ f1 f2, v < f1 → v < f2 →
      decodeL lik par f1 (v : ℤ) = decodeL lik par f2 (v : ℤ) := by
  intro v
  induction v using Nat.strong_induction_on with
  | _ v ih =>
    intro hv f1 f2 hf1 hf2
    obtain ⟨g1, rfl⟩ : ∃ g1, f1 = g1 + 1 := ⟨f1 - 1, by omega⟩
    obtain ⟨g2, rfl⟩ : ∃ g2, f2 = g2 + 1 := ⟨f2 - 1, by omega⟩
    show decodeL lik par (g1 + 1) (v : ℤ) = decodeL lik par (g2 + 1) (v : ℤ)
    unfold decodeL
    by_cases hc : npGetQ lik (v : ℤ) = -1
    · rw [if_pos hc, if_pos hc]
      rcases hpar v hv with hp | ⟨hp0, hplt⟩
      · exact absurd hc (hroot v hv hp)
      · set p := npGetZ par (v : ℤ) with hpdef
        have hptn : p = ((p.toNat : ℕ) : ℤ) := (Int.toNat_of_nonneg hp0).symm
        have hplt' : p.toNat < v := by omega
        rw [hptn]
        exact ih p.toNat hplt' (by omega) g1 g2 (by omega) (by omega)
    · rw [if_neg hc, if_neg hc]

theorem decodeL_step (lik : List ℚ) (par : List ℤ) (hpar : ParOK par)
    (hroot : RootsOK lik par) (v : ℕ) (hv : v < par.length)
    (hc : npGetQ lik (v : ℤ) = -1) :
    decodeL lik par (par.length + 1) (v : ℤ) =
      decodeL lik par (par.length + 1) (npGetZ par (v : ℤ)) := by
  rcases hpar v hv with hp | ⟨hp0, hplt⟩
  · exact absurd hc (hroot v hv hp)
  · have hunf : decodeL lik par (par.length + 1) (v : ℤ) =
        (if npGetQ lik (v : ℤ) = -1 then decodeL lik par par.length (npGetZ par (v : ℤ))
         else npGetQ lik (v : ℤ)) := rfl
    rw [hunf, if_pos hc]
    set p := npGetZ par (v : ℤ) with hpdef
    have hptn : p = ((p.toNat : ℕ) : ℤ) := (Int.toNat_of_nonneg hp0).symm
    rw [hptn]
    exact decodeL_fuel lik par hpar hroot p.toNat (by omega) _ _ (by omega) (by omega)

theorem decodeL_self (lik : List ℚ) (par : List ℤ) (f : ℕ) (v : ℤ)
    (hc : npGetQ lik v ≠ -1) : decodeL lik par (f + 1) v = npGetQ lik v := by
  unfold decodeL
  rw [if_neg hc]

theorem npGetQ_natCast (l : List ℚ) (w : ℕ) : npGetQ l (w : ℤ) = l.getD w 0 := by
  unfold npGetQ
  rw [if_neg (by omega)]
  simp

theorem npGetZ_natCast (l : List ℤ) (w : ℕ) : npGetZ l (w : ℤ) = l.getD w (-1) := by
  unfold npGetZ
  rw [if_neg (by omega)]
  simp

theorem npSetQ_natCast (l : List ℚ) (w : ℕ) (x : ℚ) :
    npSetQ l (w : ℤ) x = l.set w x := by
  unfold npSetQ
  rw [if_neg (by omega)]
  simp

theorem getD_of_getElem {α : Type} (l : List α) (u : ℕ) (d x : α)
    (h : l[u]? = some x) : l.getD u d = x := by
  rw [List.getD_eq_getElem?_getD, h]
  rfl

theorem decodeL_ne_neg_one (lik : List ℚ) (par : List ℤ) (hpar : ParOK par)
    (hroot : RootsOK lik par) :
    ∀ v : ℕ, v < par.length → decodeL lik par (par.length + 1) (v : ℤ) ≠ -1 := by
  intro v
  induction v using Nat.strong_induction_on with
  | _ v ih =>
    intro hv
    by_cases hc : npGetQ lik (v : ℤ) = -1
    · rw [decodeL_step lik par hpar hroot v hv hc]
      rcases hpar v hv with hp | ⟨hp0, hplt⟩
      · exact absurd hc (hroot v hv hp)
      · set p := npGetZ par (v : ℤ) with hpdef
        have hptn : p = ((p.toNat : ℕ) : ℤ) := (Int.toNat_of_nonneg hp0).symm
        rw [hptn]
        exact ih p.toNat (by omega) (by omega)
    · rw [decodeL_self lik par par.length (v : ℤ) hc]
      exact hc

theorem decodeL_delete (lik : List ℚ) (par : List ℤ) (hpar : ParOK par)
    (hroot : RootsOK lik par) (hlen : lik.length = par.length)
    (u : ℕ) (hu : u < par.length) (hpu : npGetZ par (u : ℤ) ≠ -1)
    (hdel : npGetQ lik (u : ℤ) =
      decodeL lik par (par.length + 1) (npGetZ par (u : ℤ))) :
    RootsOK (lik.set u (-1)) par ∧
    ∀ v : ℕ, v < par.length →
      decodeL (lik.set u (-1)) par (par.length + 1) (v : ℤ) =
        decodeL lik par (par.length + 1) (v : ℤ) := by
  have hproot : RootsOK (lik.set u (-1)) par := by
    intro w hw hpw
    have hne : u ≠ w := fun he => hpu (he ▸ hpw)
    rw [npGetQ_natCast, getD_set_ne _ _ _ _ hne, ← npGetQ_natCast]
    exact hroot w hw hpw
  refine ⟨hproot, ?_⟩
  rcases hpar u hu with hp | ⟨hp0, hplt⟩
  · exact absurd hp hpu
  set p := npGetZ par (u : ℤ) with hpdef
  have hptn : p = ((p.toNat : ℕ) : ℤ) := (Int.toNat_of_nonneg hp0).symm
  have hLu : npGetQ lik (u : ℤ) ≠ -1 := by
    rw [hdel, hptn]
    exact decodeL_ne_neg_one lik par hpar hroot p.toNat (by omega)
  intro v
  induction v using Nat.strong_induction_on with
  | _ v ih =>
    intro hv
    by_cases hvu : v = u
    · subst hvu
      have hnew : npGetQ (lik.set v (-1)) (v : ℤ) = -1 := by
        rw [npGetQ_natCast]
        exact getD_set_self lik v (-1) (by omega)
      rw [decodeL_step (lik.set v (-1)) par hpar hproot v hv hnew, ← hpdef, hptn,
        ih p.toNat (by omega) (by omega), ← hptn, ← hdel]
      exact (decodeL_self lik par par.length (v : ℤ) hLu).symm
    · have hsame : npGetQ (lik.set u (-1)) (v : ℤ) = npGetQ lik (v : ℤ) := by
        rw [npGetQ_natCast, npGetQ_natCast]
        exact getD_set_ne lik u v (-1) (fun h => hvu h.symm)
      by_cases hc : npGetQ lik (v : ℤ) = -1
      · rw [decodeL_step (lik.set u (-1)) par hpar hproot v hv (by rw [hsame]; exact hc),
          decodeL_step lik par hpar hroot v hv hc]
        rcases hpar v hv with hq | ⟨hq0, hqlt⟩
        · exact absurd hc (hroot v hv hq)
        · set q := npGetZ par (v : ℤ) with hqdef
          have hqtn : q = ((q.toNat : ℕ) : ℤ) := (Int.toNat_of_nonneg hq0).symm
          rw [hqtn]
          exact ih q.toNat (by omega) (by omega)
      · rw [decodeL_self (lik.set u (-1)) par par.length (v : ℤ)
            (by rw [hsame]; exact hc),
          decodeL_self lik par par.length (v : ℤ) hc, hsame]

/-- Validity of the scratch `L_cache`: a cached entry sits on a compressed
node and stores exactly that node's decoded likelihood. -/
def CacheOK (lik lcache : List ℚ) (par : List ℤ) : Prop :=
  ∀ v : ℕ, v < par.length → npGetQ lcache (v : ℤ) ≠ -1 →
    npGetQ lik (v : ℤ) = -1 ∧
    npGetQ lcache (v : ℤ) = decodeL lik par (par.length + 1) (v : ℤ)

theorem walkLC_decode (lik lcache : List ℚ) (par : List ℤ) (hpar : ParOK par)
    (hroot : RootsOK lik par) (hcache : CacheOK lik lcache par) :
    ∀ (v : ℕ), v < par.length → ∀ (f : ℕ) (vs : ℤ), v < f →
      walkLC lik lcache par f (v : ℤ) = some vs →
      ∃ w : ℕ, vs = (w : ℤ) ∧ w < par.length ∧
        (if npGetQ lcache (w : ℤ) = -1 then npGetQ lik (w : ℤ)
         else npGetQ lcache (w : ℤ)) = decodeL lik par (par.length + 1) (v : ℤ) := by
  intro v
  induction v using Nat.strong_induction_on with
  | _ v ih =>
    intro hv f vs hf hwalk
    obtain ⟨g, rfl⟩ : ∃ g, f = g + 1 := ⟨f - 1, by omega⟩
    have hunf : walkLC lik lcache par (g + 1) (v : ℤ) =
        (if npGetQ lik (v : ℤ) = -1 ∧ npGetQ lcache (v : ℤ) = -1 then
          walkLC lik lcache par g (npGetZ par (v : ℤ))
         else some (v : ℤ)) := rfl
    by_cases hc : npGetQ lik (v : ℤ) = -1 ∧ npGetQ lcache (v : ℤ) = -1
    · rw [hunf, if_pos hc] at hwalk
      rcases hpar v hv with hp | ⟨hp0, hplt⟩
      · exact absurd hc.1 (hroot v hv hp)
      · set p := npGetZ par (v : ℤ) with hpdef
        have hptn : p = ((p.toNat : ℕ) : ℤ) := (Int.toNat_of_nonneg hp0).symm
        rw [hptn] at hwalk
        obtain ⟨w, hw1, hw2, hw3⟩ := ih p.toNat (by omega) (by omega) g vs (by omega) hwalk
        refine ⟨w, hw1, hw2, ?_⟩
        rw [decodeL_step lik par hpar hroot v hv hc.1, ← hpdef, hptn]
        exact hw3
    · rw [hunf, if_neg hc] at hwalk
      obtain rfl : (v : ℤ) = vs := Option.some.inj hwalk
      refine ⟨v, rfl, hv, ?_⟩
      by_cases hcc : npGetQ lcache (v : ℤ) = -1
      · rw [if_pos hcc]
        have hlv : npGetQ lik (v : ℤ) ≠ -1 := fun h => hc ⟨h, hcc⟩
        exact (decodeL_self lik par par.length (v : ℤ) hlv).symm
      · rw [if_neg hcc]
        exact (hcache v hv hcc).2

theorem fillLC_cacheOK (lik : List ℚ) (par : List ℤ) (hpar : ParOK par)
    (hroot : RootsOK lik par) (lp : ℚ) :
    ∀ (v : ℕ), v < par.length → ∀ (f : ℕ) (lcache res : List ℚ), v < f →
      lcache.length = par.length →
      CacheOK lik lcache par →
      lp = decodeL lik par (par.length + 1) (v : ℤ) →
      fillLC lik par lp f lcache (v : ℤ) = some res →
      CacheOK lik res par ∧ res.length = par.length := by
  intro v
  induction v using Nat.strong_induction_on with
  | _ v ih =>
    intro hv f lcache res hf hclen hcache hlp hfill
    obtain ⟨g, rfl⟩ : ∃ g, f = g + 1 := ⟨f - 1, by omega⟩
    have hunf : fillLC lik par lp (g + 1) lcache (v : ℤ) =
        (if npGetQ lik (v : ℤ) = -1 ∧ npGetQ lcache (v : ℤ) = -1 then
          fillLC lik par lp g (npSetQ lcache (v : ℤ) lp) (npGetZ par (v : ℤ))
         else some lcache) := rfl
    by_cases hc : npGetQ lik (v : ℤ) = -1 ∧ npGetQ lcache (v : ℤ) = -1
    · rw [hunf, if_pos hc] at hfill
      rcases hpar v hv with hp | ⟨hp0, hplt⟩
      · exact absurd hc.1 (hroot v hv hp)
      · set p := npGetZ par (v : ℤ) with hpdef
        have hptn : p = ((p.toNat : ℕ) : ℤ) := (Int.toNat_of_nonneg hp0).symm
        rw [hptn, npSetQ_natCast] at hfill
        have hcache2 : CacheOK lik (lcache.set v lp) par := by
          intro w hw hwne
          by_cases hwv : w = v
          · subst hwv
            refine ⟨hc.1, ?_⟩
            rw [npGetQ_natCast, getD_set_self lcache w lp (by omega)]
            exact hlp
          · have hval : npGetQ (lcache.set v lp) (w : ℤ) = npGetQ lcache (w : ℤ) := by
              rw [npGetQ_natCast, getD_set_ne lcache v w lp (fun h => hwv h.symm),
                npGetQ_natCast]
            rw [hval] at hwne ⊢
            exact hcache w hw hwne
        have hlp2 : lp = decodeL lik par (par.length + 1) ((p.toNat : ℕ) : ℤ) := by
          rw [← hptn, hlp]
          exact decodeL_step lik par hpar hroot v hv hc.1
        exact ih p.toNat (by omega) (by omega) g (lcache.set v lp) res (by omega)
          (by simpa using hclen) hcache2 hlp2 hfill
    · rw [hunf, if_neg hc] at hfill
      obtain rfl : lcache = res := Option.some.inj hfill
      exact ⟨hcache, hclen⟩

theorem compressStep_inv (par : List ℤ) (acc acc' : CompAcc) (u : ℕ)
    (hpar : ParOK par)
    (hlen : acc.likelihood.length = par.length)
    (hclen : acc.lcache.length = par.length)
    (hroot : RootsOK acc.likelihood par)
    (hcache : CacheOK acc.likelihood acc.lcache par)
    (hu : u < par.length)
    (hstep : compressStep par acc u = some acc') :
    acc'.likelihood.length = par.length ∧
    acc'.lcache.length = par.length ∧
    RootsOK acc'.likelihood par ∧
    CacheOK acc'.likelihood acc'.lcache par ∧
    (∀ v : ℕ, v < par.length →
      decodeL acc'.likelihood par (par.length + 1) (v : ℤ) =
        decodeL acc.likelihood par (par.length + 1) (v : ℤ)) ∧
    (∀ w : ℕ, w ≠ u → acc'.likelihood.getD w 0 = acc.likelihood.getD w 0) ∧
    acc'.nodes =
      (if 0 ≤ acc'.likelihood.getD u 0 then acc.nodes ++ [u] else acc.nodes) := by
  simp only [compressStep, Option.bind_eq_bind, Option.bind_eq_some] at hstep
  obtain ⟨x0, hx0, hstep⟩ := hstep
  obtain ⟨p, hp, hstep⟩ := hstep
  have hpz : npGetZ par (u : ℤ) = p := by
    rw [npGetZ_natCast]
    exact getD_of_getElem par u (-1) p hp
  by_cases hpne : p = -1
  · rw [if_neg (not_not_intro hpne)] at hstep
    simp only [Option.pure_def, Option.some.injEq] at hstep
    subst hstep
    exact ⟨hlen, hclen, hroot, hcache, fun v hv => rfl, fun w hw => rfl, rfl⟩
  · rw [if_pos hpne] at hstep
    simp only [Option.bind_eq_bind, Option.bind_eq_some] at hstep
    obtain ⟨v, hwalk, hstep⟩ := hstep
    obtain ⟨lcache2, hfill, hstep⟩ := hstep
    simp only [Option.pure_def, Option.some.injEq] at hstep
    have hpbounds : 0 ≤ p ∧ p < (u : ℤ) := by
      rcases hpar u hu with h | h
      · exact absurd (hpz.symm.trans h) hpne
      · rw [hpz] at h
        exact h
    have hptn : p = ((p.toNat : ℕ) : ℤ) := (Int.toNat_of_nonneg hpbounds.1).symm
    rw [hptn] at hwalk
    obtain ⟨w, hveq, hwlt, hwval⟩ :=
      walkLC_decode acc.likelihood acc.lcache par hpar hroot hcache p.toNat
        (by omega) (par.length + 1) v (by omega) hwalk
    subst hveq
    rw [hptn] at hfill
    obtain ⟨hcache2, hclen2⟩ :=
      fillLC_cacheOK acc.likelihood par hpar hroot _ p.toNat (by omega)
        (par.length + 1) acc.lcache lcache2 (by omega) hclen hcache hwval hfill
    by_cases hdel0 : acc.likelihood.getD u 0 =
        (if npGetQ acc.lcache (w : ℤ) = -1 then npGetQ acc.likelihood (w : ℤ)
         else npGetQ acc.lcache (w : ℤ))
    · rw [if_pos hdel0] at hstep
      have hdel : npGetQ acc.likelihood (u : ℤ) =
          decodeL acc.likelihood par (par.length + 1) (npGetZ par (u : ℤ)) := by
        rw [npGetQ_natCast, hdel0, hpz, hptn]
        exact hwval
      obtain ⟨hroot2, hpres⟩ :=
        decodeL_delete acc.likelihood par hpar hroot hlen u hu
          (by rw [hpz]; exact hpne) hdel
      have hcache3 : CacheOK (acc.likelihood.set u (-1)) lcache2 par := by
        intro z hz hzne
        obtain ⟨hz1, hz2⟩ := hcache2 z hz hzne
        refine ⟨?_, ?_⟩
        · by_cases hzu : z = u
          · subst hzu
            rw [npGetQ_natCast]
            exact getD_set_self _ _ _ (by omega)
          · rw [npGetQ_natCast, getD_set_ne _ _ _ _ (fun h => hzu h.symm),
              ← npGetQ_natCast]
            exact hz1
        · rw [hpres z hz]
          exact hz2
      subst hstep
      refine ⟨by simpa using hlen, hclen2, hroot2, hcache3, hpres, ?_, rfl⟩
      intro z hz
      exact getD_set_ne _ _ _ _ (fun h => hz h.symm)
    · rw [if_neg hdel0] at hstep
      subst hstep
      exact ⟨hlen, hclen2, hroot, hcache2, fun z hz => rfl, fun z hz => rfl, rfl⟩

theorem compressFold_inv (par : List ℤ) (hpar : ParOK par) :
    ∀ (ls : List ℕ) (acc acc' : CompAcc),
      ls.Nodup → (∀ u ∈ ls, u < par.length) →
      acc.likelihood.length = par.length →
      acc.lcache.length = par.length →
      RootsOK acc.likelihood par →
      CacheOK acc.likelihood acc.lcache par →
      ls.foldlM (compressStep par) acc = some acc' →
      acc'.likelihood.length = par.length ∧
      acc'.lcache.length = par.length ∧
      RootsOK acc'.likelihood par ∧
      CacheOK acc'.likelihood acc'.lcache par ∧
      (∀ v : ℕ, v < par.length →
        decodeL acc'.likelihood par (par.length + 1) (v : ℤ) =
          decodeL acc.likelihood par (par.length + 1) (v : ℤ)) ∧
      (∀ w : ℕ, w ∉ ls → acc'.likelihood.getD w 0 = acc.likelihood.getD w 0) ∧
      (∀ w : ℕ, w ∈ acc'.nodes ↔
        (w ∈ acc.nodes ∨ (w ∈ ls ∧ 0 ≤ acc'.likelihood.getD w 0))) := by
  intro ls
  induction ls with
  | nil =>
    intro acc acc' hnd hmemls h1 h2 h3 h4 hfold
    simp only [List.foldlM_nil, Option.pure_def, Option.some.injEq] at hfold
    subst hfold
    refine ⟨h1, h2, h3, h4, fun v hv => rfl, fun w hw => rfl, fun w => ?_⟩
    simp
  | cons u tl ih =>
    intro acc acc' hnd hmemls h1 h2 h3 h4 hfold
    rw [List.foldlM_cons] at hfold
    simp only [Option.bind_eq_bind, Option.bind_eq_some] at hfold
    obtain ⟨acc1, hstep, hfold⟩ := hfold
    obtain ⟨s1, s2, s3, s4, s5, s6, s7⟩ :=
      compressStep_inv par acc acc1 u hpar h1 h2 h3 h4 (hmemls u (by simp)) hstep
    obtain ⟨t1, t2, t3, t4, t5, t6, t7⟩ :=
      ih acc1 acc' hnd.of_cons (fun x hx => hmemls x (by simp [hx])) s1 s2 s3 s4 hfold
    have hu_tl : u ∉ tl := (List.nodup_cons.mp hnd).1
    refine ⟨t1, t2, t3, t4, ?_, ?_, ?_⟩
    · intro v hv
      rw [t5 v hv, s5 v hv]
    · intro w hw
      have hwu : w ≠ u := fun h => hw (by simp [h])
      have hwtl : w ∉ tl := fun h => hw (by simp [h])
      rw [t6 w hwtl, s6 w hwu]
    · intro w
      rw [t7 w, s7]
      by_cases hdu : 0 ≤ acc1.likelihood.getD u 0
      · rw [if_pos hdu]
        constructor
        · rintro (hmem1 | ⟨hwtl, hL⟩)
          · rcases List.mem_append.mp hmem1 with h | h
            · exact Or.inl h
            · have hwu : w = u := by simpa using h
              subst hwu
              refine Or.inr ⟨by simp, ?_⟩
              rw [t6 w hu_tl]
              exact hdu
          · exact Or.inr ⟨by simp [hwtl], hL⟩
        · rintro (h | ⟨hwm, hL⟩)
          · exact Or.inl (List.mem_append.mpr (Or.inl h))
          · rcases List.mem_cons.mp hwm with h | h
            · subst h
              exact Or.inl (List.mem_append.mpr (Or.inr (by simp)))
            · exact Or.inr ⟨h, hL⟩
      · rw [if_neg hdu]
        constructor
        · rintro (h | ⟨hwtl, hL⟩)
          · exact Or.inl h
          · exact Or.inr ⟨by simp [hwtl], hL⟩
        · rintro (h | ⟨hwm, hL⟩)
          · exact Or.inl h
          · rcases List.mem_cons.mp hwm with h | h
            · subst h
              rw [t6 w hu_tl] at hL
              exact absurd hL hdu
            · exact Or.inr ⟨h, hL⟩

/-- C10: whenever `compress_likelihoods` returns on a state whose parent
pointers descend, whose roots carry explicit (non-sentinel) likelihoods,
and whose `likelihood_nodes` is a duplicate-free cover of the non-negative
likelihood entries (the `check_likelihoods` invariants), the decoded
likelihood of every node — the value found by walking from the node up to
the nearest ancestor whose stored likelihood is not the compressed
sentinel `-1` — is the same before and after the call; on return
`likelihood_nodes` holds exactly the in-range nodes `u` with
`likelihood[u] >= 0`; and the scratch `L_cache` of the run is entirely
reset to `-1`. -/
theorem C10_compress_preserves_decoded_likelihoods
    (st st' : MatcherState)
    (hpar : ParOK st.parent)
    (hroot : RootsOK st.likelihood st.parent)
    (hlen : st.likelihood.length = st.parent.length)
    (hnd : st.likelihood_nodes.Nodup)
    (hmem : ∀ u ∈ st.likelihood_nodes, u < st.parent.length)
    (hcover : ∀ u : ℕ, u < st.parent.length →
      0 ≤ st.likelihood.getD u 0 → u ∈ st.likelihood_nodes)
    (hcomp : compress_likelihoods st = some st') :
    st'.parent = st.parent ∧
    st'.likelihood.length = st.parent.length ∧
    (∀ v : ℕ, v < st.parent.length →
      decodeL st'.likelihood st.parent (st.parent.length + 1) (v : ℤ) =
        decodeL st.likelihood st.parent (st.parent.length + 1) (v : ℤ)) ∧
    (∀ u : ℕ, u < st.parent.length →
      (u ∈ st'.likelihood_nodes ↔ 0 ≤ st'.likelihood.getD u 0)) ∧
    (∃ lc : List ℚ, compressAux st = some (st', lc) ∧ ∀ x ∈ lc, x = -1) := by
  simp only [compress_likelihoods, Option.bind_eq_bind, Option.bind_eq_some] at hcomp
  obtain ⟨res, haux, hcomp⟩ := hcomp
  have hauxOrig := haux
  simp only [compressAux, Option.bind_eq_bind, Option.bind_eq_some] at haux
  obtain ⟨acc, hfold, haux⟩ := haux
  obtain ⟨lcache, hclear, hpairres⟩ := haux
  simp only [Option.pure_def, Option.some.injEq] at hpairres
  subst hpairres
  by_cases hall : ∀ x ∈ lcache, x = -1
  · rw [if_pos (by simp only [List.all_eq_true, decide_eq_true_eq]; exact hall)] at hcomp
    simp only [Option.pure_def, Option.some.injEq] at hcomp
    subst hcomp
    have hcache0 : CacheOK st.likelihood
        (List.replicate st.likelihood.length (-1)) st.parent := by
      intro v hv hvne
      exfalso
      apply hvne
      rw [npGetQ_natCast,
        List.getD_eq_getElem _ _ (by simpa using (by omega : v < st.likelihood.length))]
      simp
    obtain ⟨t1, t2, t3, t4, t5, t6, t7⟩ :=
      compressFold_inv st.parent hpar st.likelihood_nodes
        (CompAcc.mk st.likelihood (List.replicate st.likelihood.length (-1)) [] []) acc
        hnd hmem hlen (by simpa using hlen) hroot hcache0 hfold
    refine ⟨rfl, t1, t5, ?_, ⟨lcache, hauxOrig, hall⟩⟩
    intro w hw
    constructor
    · intro hwm
      have hwm2 : w ∈ acc.nodes := hwm
      rcases (t7 w).mp hwm2 with h | ⟨hls, hL⟩
      · exact absurd h (by simp)
      · exact hL
    · intro hL
      have hL2 : 0 ≤ acc.likelihood.getD w 0 := hL
      have hin : w ∈ acc.nodes := by
        refine (t7 w).mpr (Or.inr ⟨?_, hL2⟩)
        by_contra hnm
        have hfr : acc.likelihood.getD w 0 = st.likelihood.getD w 0 := t6 w hnm
        rw [hfr] at hL2
        exact hnm (hcover w hw hL2)
      exact hin
  · rw [if_neg (fun hcon => hall (by
      simp only [List.all_eq_true, decide_eq_true_eq] at hcon
      exact hcon))] at hcomp
    simp at hcomp

/-- A two-node tree (node 1 a child of root 0) with both nodes explicit in
`likelihood_nodes` and equal likelihoods, so compression deletes node 1. -/
def c10st : MatcherState :=
  ⟨[-1, 0], [1, -1], [1, -1], [-1, -1], [-1, -1], [[]], [1, 1], [0, 1]⟩

/-- The state `compress_likelihoods` produces from `c10st`: node 1's value
is replaced by the sentinel and it leaves `likelihood_nodes`. -/
def c10stPost : MatcherState :=
  ⟨[-1, 0], [1, -1], [1, -1], [-1, -1], [-1, -1], [[]], [1, -1], [0]⟩

theorem compressEvalC10 : compress_likelihoods c10st = some c10stPost := by
  decide

theorem C10_compress_preserves_decoded_likelihoods_witness :
    c10stPost.parent = c10st.parent ∧
    c10stPost.likelihood.length = c10st.parent.length ∧
    (∀ v : ℕ, v < c10st.parent.length →
      decodeL c10stPost.likelihood c10st.parent (c10st.parent.length + 1) (v : ℤ) =
        decodeL c10st.likelihood c10st.parent (c10st.parent.length + 1) (v : ℤ)) ∧
    (∀ u : ℕ, u < c10st.parent.length →
      (u ∈ c10stPost.likelihood_nodes ↔ 0 ≤ c10stPost.likelihood.getD u 0)) ∧
    (∃ lc : List ℚ, compressAux c10st = some (c10stPost, lc) ∧ ∀ x ∈ lc, x = -1) :=
  C10_compress_preserves_decoded_likelihoods c10st c10stPost
    (by
      intro u hu
      have hu2 : u < 2 := by simpa [c10st] using hu
      interval_cases u <;> decide)
    (by
      intro u hu hp
      have hu2 : u < 2 := by simpa [c10st] using hu
      interval_cases u <;> norm_num [c10st, npGetQ, npGetZ] at hp ⊢)
    rfl
    (by decide)
    (by decide)
    (by
      intro u hu hL
      have hu2 : u < 2 := by simpa [c10st] using hu
      interval_cases u <;> simp [c10st])
    compressEvalC10

end Tsinfer
